import Mathlib

/-!
Verification of the RAG backend against its natural-language specification.

Each section below is a shallow embedding of one part of the Python source
(`src/backend/app/...`), translated definition by definition, followed at the
end of the file by theorems settling the specification claims.
-/

set_option maxRecDepth 4000

/-! ## Context-window cache (`app/utils/redis_client.py`, `RedisClient.add_message`)

The Redis message list is head-inserted (`lpush`), so the newest message is the
head of the list.  `add_message` reads the list length before the pipeline
executes, queues an `lpush`, queues an `rpop` when the pre-push length already
reached the cap, and stores `min((len+1)//2, MAX_CONTEXT_TURNS)` as the turn
count. -/

namespace RedisCtx

structure CtxMsg where
  role : String
  content : String
  deriving DecidableEq

/-- `RedisClient.add_message`: returns the new cached list (newest first) and
the `turn_count` written to the context hash.  `maxTurns` is
`settings.MAX_CONTEXT_TURNS`. -/
def add_message (maxTurns : Nat) (msgs : List CtxMsg) (m : CtxMsg) :
    List CtxMsg × Nat :=
  let messageCount := msgs.length
  let currentTurns := (messageCount + 1) / 2
  let pushed := m :: msgs
  let trimmed := if maxTurns * 2 ≤ messageCount then pushed.dropLast else pushed
  (trimmed, min currentTurns maxTurns)

/-- `RedisClient.load_context_from_history`: keeps only the last
`2*MAX_CONTEXT_TURNS` history messages, stored newest-first. -/
def load_context_from_history (maxTurns : Nat) (messages : List CtxMsg) :
    List CtxMsg :=
  let maxMessages := maxTurns * 2
  let recent := if maxMessages < messages.length
    then messages.drop (messages.length - maxMessages) else messages
  recent.reverse

end RedisCtx

/-! ## Session store (`app/services/session_service.py`, `save_chat_message`)

`ChatHistory` rows are modelled by their `session_id`, `sequence`, `role` and
`content`; the sessions table keeps `message_count` and `title` per session. -/

namespace SessionStore

structure ChatRow where
  sessionId : String
  sequence : Nat
  role : String
  content : String
  deriving DecidableEq

structure SessRow where
  sessionId : String
  userId : Nat
  robotId : Nat
  statusv : String
  title : String
  messageCount : Nat
  deriving DecidableEq

structure DBState where
  history : List ChatRow
  sessions : List SessRow
  deriving DecidableEq

/-- Count of `ChatHistory` rows with the given `session_id`. -/
def histCount (db : DBState) (sid : String) : Nat :=
  (db.history.filter (fun r => r.sessionId = sid)).length

/-- Title synthesised from the first user message: first 50 characters, with
an ellipsis suffix when truncated. -/
def titleFrom (content : String) : String :=
  ⟨content.toList.take 50⟩ ++ (if 50 < content.toList.length then "..." else "")

/-- `SessionService.save_chat_message`: inserts a new row with
`sequence = current count + 1` and updates the session's `message_count`
(and, on the first user message, its title). -/
def save_chat_message (db : DBState) (sid role content : String) : DBState :=
  let maxSeq := histCount db sid
  let row : ChatRow := ⟨sid, maxSeq + 1, role, content⟩
  { history := db.history ++ [row]
    sessions := db.sessions.map (fun s =>
      if s.sessionId = sid then
        { s with
          messageCount := maxSeq + 1
          title := if role = "user" ∧ maxSeq = 0 then titleFrom content else s.title }
      else s) }

/-- Sequences of the rows belonging to one session, in table order. -/
def seqsOf (db : DBState) (sid : String) : List Nat :=
  (db.history.filter (fun r => r.sessionId = sid)).map (·.sequence)

/-- The per-session invariant claimed by the spec: `message_count` equals the
number of `ChatHistory` rows for the session, and their `sequence` values are
exactly `{1..message_count}` with no gaps. -/
def SessInv (db : DBState) : Prop :=
  ∀ s ∈ db.sessions,
    s.messageCount = histCount db s.sessionId ∧
    (seqsOf db s.sessionId).Perm (List.range' 1 s.messageCount)

end SessionStore

/-! ## Authentication (`app/core/deps.py`, `get_current_user`)

Timestamps (`iat`, `password_changed_at`) are modelled as integers (epoch
seconds); `token_iat` is "truthy" in Python exactly when it is present and
non-zero. -/

namespace Auth

structure Payload where
  sub : Option Nat
  iat : Option Int
  deriving DecidableEq

structure UserRow where
  id : Nat
  statusv : Nat
  passwordChangedAt : Option Int
  role : String
  deriving DecidableEq

inductive AuthResult where
  | ok (u : UserRow)
  | err (code : Nat) (detail : String)
  deriving DecidableEq

/-- `get_current_user`: token extraction, decode, user lookup, status check,
and the password-change freshness check.  `decoded` is the result of
`decode_access_token` and `lookup` the user query. -/
def get_current_user (authToken : Option String) (decoded : Option Payload)
    (lookup : Nat → Option UserRow) : AuthResult :=
  match authToken with
  | none => .err 401 "未认证，请先登录"
  | some _ =>
    match decoded with
    | none => .err 401 "无效的认证凭证"
    | some payload =>
      match payload.sub with
      | none => .err 401 "令牌中缺少用户ID"
      | some userId =>
        match lookup userId with
        | none => .err 401 "用户不存在"
        | some user =>
          if user.statusv ≠ 1 then .err 403 "用户账号已被禁用"
          else
            match user.passwordChangedAt, payload.iat with
            | some pwdChangedAt, some tokenIat =>
              if tokenIat ≠ 0 ∧ tokenIat < pwdChangedAt then
                .err 401 "密码已修改，请重新登录"
              else .ok user
            | _, _ => .ok user

end Auth

/-! ## Session resolution (`app/services/session_service.py`,
`get_or_create_session` / `get_session_by_id` / `create_session`) -/

namespace SessResolve

open SessionStore

structure RobotRow where
  id : Nat
  userId : Nat
  deriving DecidableEq

/-- `SessionService.get_session_by_id`: the session must match the id, belong
to the caller, and not be soft-deleted. -/
def get_session_by_id (sessions : List SessRow) (sid : String) (userId : Nat) :
    Option SessRow :=
  sessions.find? (fun s =>
    s.sessionId = sid ∧ s.userId = userId ∧ s.statusv ≠ "deleted")

/-- `SessionService.create_session`: 404 when the robot does not exist or is
not owned by the caller, otherwise a brand-new active session under a freshly
generated UUID (`freshId`). -/
def create_session (robots : List RobotRow) (userId robotId : Nat)
    (freshId : String) (defaultTitle : String) : Except Nat SessRow :=
  match robots.find? (fun r => r.id = robotId ∧ r.userId = userId) with
  | none => .error 404
  | some _ => .ok ⟨freshId, userId, robotId, "active", defaultTitle, 0⟩

/-- `SessionService.get_or_create_session`: reuse a matching owned live
session (400 on robot mismatch), otherwise create a new one. -/
def get_or_create_session (robots : List RobotRow) (sessions : List SessRow)
    (userId robotId : Nat) (sessionId : Option String)
    (freshId defaultTitle : String) : Except Nat (SessRow × Bool) :=
  match sessionId with
  | some sid =>
    match get_session_by_id sessions sid userId with
    | some s =>
      if s.robotId ≠ robotId then .error 400 else .ok (s, false)
    | none =>
      (create_session robots userId robotId freshId defaultTitle).map (·, true)
  | none =>
    (create_session robots userId robotId freshId defaultTitle).map (·, true)

end SessResolve

/-! ## Recall-test metrics (`app/services/recall_service.py`, `run_recall_task`)

Scores are modelled as exact rationals.  Per query the worker filters the
retrieved contexts by `score >= threshold`, keeps their `document_id`s as a
*list* (duplicates retained), and computes recall / precision / F1 /
`top_n_hit` exactly as in the loop body. -/

namespace Recall

structure RCtx where
  documentId : Nat
  score : ℚ
  deriving DecidableEq

structure Metrics where
  recallv : ℚ
  precisionv : ℚ
  f1v : ℚ
  topNHit : Bool
  deriving DecidableEq

/-- `retrieved_ids`: document ids of the contexts whose score passed the
threshold, in retrieval order, duplicates retained. -/
def retrievedIds (retrieved : List RCtx) (threshold : ℚ) : List Nat :=
  (retrieved.filter (fun c => threshold ≤ c.score)).map (·.documentId)

/-- The per-query metric computation of `run_recall_task`
(`len(set(retrieved_ids) & set(expected_ids))` is the cardinality of the
intersection of the two id sets; the divisors are the *list* lengths). -/
def queryMetrics (retrieved : List RCtx) (expected : List Nat)
    (threshold : ℚ) : Metrics :=
  let rids := retrievedIds retrieved threshold
  if expected ≠ [] then
    let hits := (rids.toFinset ∩ expected.toFinset).card
    let recallQ : ℚ := (hits : ℚ) / (expected.length : ℚ)
    let precisionQ : ℚ :=
      if rids ≠ [] then (hits : ℚ) / (rids.length : ℚ) else 0
    let f1Q : ℚ :=
      if 0 < recallQ + precisionQ then
        2 * (precisionQ * recallQ) / (precisionQ + recallQ)
      else 0
    let topNHit := expected.any (fun eid => (retrieved.map (·.documentId)).contains eid)
    ⟨recallQ, precisionQ, f1Q, topNHit⟩
  else
    let topNHit := rids ≠ []
    ⟨if topNHit then 1 else 0, if topNHit then 1 else 0,
     if topNHit then 1 else 0, topNHit⟩

/-- The spec's `R`: the *set* of retrieved document ids with
`score ≥ threshold`. -/
def specR (retrieved : List RCtx) (threshold : ℚ) : Finset Nat :=
  (retrievedIds retrieved threshold).toFinset

/-- The spec's per-query formulas, written from the spec's words for
comparison: `recall = |R∩E|/|E|`, `precision = |R∩E|/|R|` (0 when `R` is
empty). -/
def specRecall (retrieved : List RCtx) (expected : List Nat) (threshold : ℚ) : ℚ :=
  ((specR retrieved threshold ∩ expected.toFinset).card : ℚ) / (expected.toFinset.card : ℚ)

/-- Spec-side precision: `|R∩E|/|R|`, 0 when `R` is empty. -/
def specPrecision (retrieved : List RCtx) (expected : List Nat) (threshold : ℚ) : ℚ :=
  if specR retrieved threshold = ∅ then 0
  else ((specR retrieved threshold ∩ expected.toFinset).card : ℚ) /
    ((specR retrieved threshold).card : ℚ)

end Recall

/-! ## Hybrid retrieval and RRF fusion (`app/services/rag_service.py`)

`RAGService._merge_results` accumulates `1/(60 + rank + 1)` per leg occurrence
into an insertion-ordered table keyed by `chunk_id` (a Python dict), marks
chunks seen in both legs as `hybrid`, sorts by fused score descending (Python's
stable sort), truncates to `top_k`, and hydrates content from the inverted
index (missing chunks are skipped). -/

namespace Rag

structure RawResult where
  chunkId : String
  documentId : Nat
  score : ℚ
  knowledgeId : Nat
  deriving DecidableEq

structure Merged where
  chunkId : String
  documentId : Nat
  knowledgeId : Nat
  vectorScore : ℚ
  keywordScore : ℚ
  rrfScore : ℚ
  source : String
  deriving DecidableEq

structure RetrievedContext where
  chunkId : String
  documentId : Nat
  filename : String
  content : String
  score : ℚ
  source : String
  deriving DecidableEq

/-- Keys (chunk ids) of the merge table, in insertion order. -/
def keysOf (acc : List Merged) : List String := acc.map (·.chunkId)

/-- One step of the vector-leg loop: initialise the entry when absent
(`rrf_score = 0`), then add `1/(60 + rank + 1)`. -/
def addVector (acc : List Merged) (rank : Nat) (r : RawResult) : List Merged :=
  let acc' :=
    if (keysOf acc).contains r.chunkId then acc
    else acc ++ [⟨r.chunkId, r.documentId, r.knowledgeId, r.score, 0, 0, "vector"⟩]
  acc'.map (fun m =>
    if m.chunkId = r.chunkId then
      { m with rrfScore := m.rrfScore + 1 / (60 + (rank : ℚ) + 1) }
    else m)

/-- One step of the keyword-leg loop: initialise when absent, otherwise record
the keyword score and mark the chunk `hybrid`; in both cases add
`1/(60 + rank + 1)`. -/
def addKeyword (acc : List Merged) (rank : Nat) (r : RawResult) : List Merged :=
  let acc' :=
    if (keysOf acc).contains r.chunkId then
      acc.map (fun m =>
        if m.chunkId = r.chunkId then
          { m with keywordScore := r.score, source := "hybrid" }
        else m)
    else acc ++ [⟨r.chunkId, r.documentId, r.knowledgeId, 0, r.score, 0, "keyword"⟩]
  acc'.map (fun m =>
    if m.chunkId = r.chunkId then
      { m with rrfScore := m.rrfScore + 1 / (60 + (rank : ℚ) + 1) }
    else m)

/-- The vector-leg `for rank, result in enumerate(...)` loop. -/
def addVectorList (acc : List Merged) (rank : Nat) : List RawResult → List Merged
  | [] => acc
  | r :: rs => addVectorList (addVector acc rank r) (rank + 1) rs

/-- The keyword-leg `for rank, result in enumerate(...)` loop. -/
def addKeywordList (acc : List Merged) (rank : Nat) : List RawResult → List Merged
  | [] => acc
  | r :: rs => addKeywordList (addKeyword acc rank r) (rank + 1) rs

/-- `merged_scores.values()` after both loops, in dict insertion order. -/
def mergeScores (vec kw : List RawResult) : List Merged :=
  addKeywordList (addVectorList [] 0 vec) 0 kw

/-- The table entry created for a vector-leg result at a given rank (used to
characterise the vector phase). -/
def vecEntry (r : RawResult) (rank : Nat) : Merged :=
  ⟨r.chunkId, r.documentId, r.knowledgeId, r.score, 0,
    1 / (60 + (rank : ℚ) + 1), "vector"⟩

/-- The table produced by the vector phase on duplicate-free input, entry by
entry. -/
def vecEntries (rank : Nat) : List RawResult → List Merged
  | [] => []
  | r :: rs => vecEntry r rank :: vecEntries (rank + 1) rs

/-- Stable insert for descending sort by `rrf_score` (ties keep the earlier
element first, as Python's stable `sorted(..., reverse=True)` does). -/
def insertByRRF (x : Merged) : List Merged → List Merged
  | [] => [x]
  | y :: ys => if y.rrfScore < x.rrfScore then x :: y :: ys else y :: insertByRRF x ys

/-- Stable sort by `rrf_score` descending. -/
def sortByRRF : List Merged → List Merged
  | [] => []
  | x :: xs => insertByRRF x (sortByRRF xs)

/-- `RAGService._merge_results`: fuse, sort descending, truncate to `top_k`,
then hydrate content and filename from the inverted index (`hydrate` models
`es_client.get_chunk_by_id`; chunks it cannot return are skipped). -/
def mergeResults (hydrate : String → Option (String × String))
    (vec kw : List RawResult) (topK : Nat) : List RetrievedContext :=
  ((sortByRRF (mergeScores vec kw)).take topK).filterMap (fun m =>
    (hydrate m.chunkId).map (fun fc =>
      ⟨m.chunkId, m.documentId, fc.1, fc.2, m.rrfScore, m.source⟩))

/-- `RAGService.hybrid_retrieve`: runs the vector leg and the keyword leg,
both with the requested `top_k`, and merges.  `vectorRetrieve` and
`keywordRetrieve` model `_vector_retrieve` / `_keyword_retrieve` as functions
of the candidate count they are invoked with. -/
def hybrid_retrieve (vectorRetrieve keywordRetrieve : Nat → List RawResult)
    (hydrate : String → Option (String × String)) (topK : Nat) :
    List RetrievedContext :=
  mergeResults hydrate (vectorRetrieve topK) (keywordRetrieve topK) topK

/-- 0-based rank of the first occurrence of a chunk id in a leg. -/
def rankOf (cid : String) : List RawResult → Option Nat
  | [] => none
  | r :: rs => if r.chunkId = cid then some 0 else (rankOf cid rs).map (· + 1)

/-- The RRF contribution of one leg to a chunk: `1/(60 + rank + 1)` at the
chunk's 0-based rank in that leg, 0 when the chunk is absent. -/
def rrfContrib (leg : List RawResult) (cid : String) : ℚ :=
  match rankOf cid leg with
  | some rank => 1 / (60 + (rank : ℚ) + 1)
  | none => 0

end Rag

/-! ## Vectorizer worker (`app/workers/vectorizer.py`, `process_chunks`)

The relational tables, the vector store (Milvus) and the inverted index (ES)
are modelled explicitly.  One run of `process_chunks` is a state transition;
the `RunOracle` says which of the three external operations (embedding, the
Milvus write, the ES write) raise, and whether the document row is deleted by
a concurrent actor between the initial check and the final commit. -/

namespace Vectorizer

structure DocRow where
  knowledgeId : Nat
  statusv : String
  chunkCount : Nat
  errorMsg : Option String
  deriving DecidableEq

structure KnowRow where
  collectionName : String
  documentCount : Nat
  totalChunks : Nat
  deriving DecidableEq

structure VecRec where
  collection : String
  chunkId : String
  documentId : Nat
  chunkIndex : Nat
  deriving DecidableEq

structure EsRec where
  chunkId : String
  documentId : Nat
  knowledgeId : Nat
  content : String
  chunkIndex : Nat
  deriving DecidableEq

structure PState where
  docs : List (Nat × DocRow)
  knows : List (Nat × KnowRow)
  milvus : List VecRec
  es : List EsRec
  deriving DecidableEq

structure RunOracle where
  embedOk : Bool
  milvusOk : Bool
  esOk : Bool
  docDeletedMidFlight : Bool
  deriving DecidableEq

def lookupDoc (st : PState) (docId : Nat) : Option DocRow :=
  (st.docs.find? (fun p => p.1 = docId)).map (·.2)

def lookupKnow (st : PState) (kid : Nat) : Option KnowRow :=
  (st.knows.find? (fun p => p.1 = kid)).map (·.2)

/-- `update(Document).where(id == docId).values(...)` — a no-op when the row
is gone. -/
def updateDoc (st : PState) (docId : Nat) (f : DocRow → DocRow) : PState :=
  { st with docs := st.docs.map (fun p => if p.1 = docId then (p.1, f p.2) else p) }

def removeDoc (st : PState) (docId : Nat) : PState :=
  { st with docs := st.docs.filter (fun p => p.1 ≠ docId) }

/-- The `chunk_id = f"{doc_id}_{idx}"` records built from the chunk texts. -/
def chunkId (docId idx : Nat) : String := toString docId ++ "_" ++ toString idx

def insertMilvus (st : PState) (coll : String) (docId : Nat)
    (chunks : List String) : PState :=
  { st with milvus := st.milvus ++
      (List.range chunks.length).map (fun i => ⟨coll, chunkId docId i, docId, i⟩) }

def insertEs (st : PState) (docId kid : Nat) (chunks : List String) : PState :=
  { st with es := st.es ++
      chunks.enum.map (fun ci => ⟨chunkId docId ci.1, docId, kid, ci.2, ci.1⟩) }

/-- `milvus_client.delete_by_document(collection_name, doc_id)`. -/
def milvusDeleteByDoc (st : PState) (coll : String) (docId : Nat) : PState :=
  { st with milvus :=
      st.milvus.filter (fun r => ¬(r.collection = coll ∧ r.documentId = docId)) }

/-- `es_client.delete_by_document(doc_id)`. -/
def esDeleteByDoc (st : PState) (docId : Nat) : PState :=
  { st with es := st.es.filter (fun r => r.documentId ≠ docId) }

/-- The compensation block of both exception handlers: re-query the knowledge
and, when it still exists, delete the document's records from both stores. -/
def cleanupStores (st : PState) (kid docId : Nat) : PState :=
  match lookupKnow st kid with
  | some kn => esDeleteByDoc (milvusDeleteByDoc st kn.collectionName docId) docId
  | none => st

/-- Exception handler: compensate in both stores, then set the document to
`failed` with an error message. -/
def failDoc (st : PState) (kid docId : Nat) (msg : String) : PState :=
  let st := cleanupStores st kid docId
  updateDoc st docId (fun d => { d with statusv := "failed", errorMsg := some msg })

/-- Knowledge counters recomputed from the completed documents
(`document_count`, `total_chunks`). -/
def recomputeCounters (st : PState) (kid : Nat) : PState :=
  let completed := st.docs.filter (fun p => p.2.knowledgeId = kid ∧ p.2.statusv = "completed")
  { st with knows := st.knows.map (fun p =>
      if p.1 = kid then
        (p.1, { p.2 with
          documentCount := completed.length
          totalChunks := (completed.map (fun q => q.2.chunkCount)).sum })
      else p) }

/-- `process_chunks(data)` for a `doc.chunks` message, as one sequential
state transition.  A concurrent deletion of the document row between the
initial check and the final commit is represented by
`o.docDeletedMidFlight`; it takes effect before the final existence check
(and before the failure handler's status update, which then no-ops). -/
def process_chunks (st : PState) (o : RunOracle) (docId : Nat)
    (chunks : List String) (kid : Nat) : PState :=
  match lookupDoc st docId with
  | none => st
  | some _ =>
    let st := updateDoc st docId (fun d => { d with statusv := "embedding" })
    match lookupKnow st kid with
    | none => st
    | some kn =>
      if ¬o.embedOk then
        let st := if o.docDeletedMidFlight then removeDoc st docId else st
        failDoc st kid docId "向量化失败: embedding error"
      else if ¬o.milvusOk then
        let st := if o.docDeletedMidFlight then removeDoc st docId else st
        failDoc st kid docId "向量化失败: milvus insert error"
      else
        let st := insertMilvus st kn.collectionName docId chunks
        if ¬o.esOk then
          let st := if o.docDeletedMidFlight then removeDoc st docId else st
          failDoc st kid docId "向量化失败: es index error"
        else
          let st := insertEs st docId kid chunks
          if o.docDeletedMidFlight then
            let st := removeDoc st docId
            esDeleteByDoc (milvusDeleteByDoc st kn.collectionName docId) docId
          else
            let st := updateDoc st docId (fun d =>
              { d with statusv := "completed", chunkCount := chunks.length,
                       errorMsg := none })
            recomputeCounters st kid

end Vectorizer

/-! ## Recursive character splitting (`app/utils/text_splitter.py`)

Texts are modelled as `List Char` (Python `len` counts characters).  Python's
`sep in text` is contiguous-sublist membership, `text.split(sep)` splits on
leftmost non-overlapping occurrences, and `str.strip()` drops whitespace from
both ends.  The running length `current_length` can go negative in the
original (the overlap pop loop subtracts a separator for the first element of
the chunk, which never contributed one), so it is an `Int`. -/

namespace Splitter

/-- Characters removed by Python `str.strip()` (the whitespace set relevant
here). -/
def isSpaceC (c : Char) : Bool :=
  c = ' ' ∨ c = '\n' ∨ c = '\t' ∨ c = '\r' ∨ c = '\x0b' ∨ c = '\x0c'

/-- Python `str.strip()`. -/
def stripL (l : List Char) : List Char :=
  ((l.dropWhile isSpaceC).reverse.dropWhile isSpaceC).reverse

/-- Python `sep in text`: contiguous substring membership. -/
def containsSub (sep t : List Char) : Bool := decide (sep <:+: t)

/-- Python `text.split(sep)` for *nonempty* `sep`: split on leftmost
occurrences.  (For `sep = []` the original never calls `split`.)  The `fuel`
argument only drives structural recursion; every step consumes at least one
character, so `fuel = t.length` never runs out. -/
def pySplitGo (sep : List Char) : Nat → List Char → List Char → List (List Char)
  | 0, cur, t => [cur.reverse ++ t]
  | _ + 1, cur, [] => [cur.reverse]
  | fuel + 1, cur, c :: rest =>
    if sep.isPrefixOf (c :: rest) ∧ sep ≠ [] then
      cur.reverse :: pySplitGo sep fuel [] (rest.drop (sep.length - 1))
    else
      pySplitGo sep fuel (c :: cur) rest

def pySplit (sep t : List Char) : List (List Char) := pySplitGo sep t.length [] t

/-- `_split_text_with_separator`: `text.split(separator)` for a nonempty
separator, `list(text)` for the empty one. -/
def splitWithSep (sep t : List Char) : List (List Char) :=
  if sep = [] then t.map (fun c => [c]) else pySplit sep t

/-- The separator-selection loop of `split_text`: the first listed separator
present in the text is chosen together with the remaining (finer) separators;
when none matches, the last separator is chosen with no remainder. -/
def chooseSepGo (dflt : List Char) (text : List Char) :
    List (List Char) → List Char × List (List Char)
  | [] => (dflt, [])
  | s :: rest => if containsSub s text then (s, rest) else chooseSepGo dflt text rest

def chooseSep (seps : List (List Char)) (text : List Char) :
    List Char × List (List Char) :=
  chooseSepGo (seps.getLastD []) text seps

/-- The overlap carry of `_merge_splits`: pop pieces from the front of the
current chunk while the tracked length exceeds `chunk_overlap`. -/
def popLoop (co : Int) (sepLen : Nat) :
    List (List Char) → Int → List (List Char) × Int
  | [], cl => ([], cl)
  | c :: rest, cl =>
    if co < cl then popLoop co sepLen rest (cl - ((c.length : Int) + (sepLen : Int)))
    else (c :: rest, cl)

/-- `separator.join(docs).strip()`. -/
def joinStrip (sep : List Char) (docs : List (List Char)) : List Char :=
  stripL (List.intercalate sep docs)

/-- The body of `_merge_splits`: fold over the pieces, flushing the current
chunk when the tracked running length would exceed `chunk_size` and carrying
a tail of tracked length at most `chunk_overlap`. -/
def mergeGo (cs co : Int) (sepLen : Nat) (sep : List Char) :
    List (List Char) → List (List Char) → Int → List (List Char) → List (List Char)
  | [], cur, _, acc => if cur ≠ [] then acc ++ [joinStrip sep cur] else acc
  | s :: rest, cur, cl, acc =>
    if s = [] then mergeGo cs co sepLen sep rest cur cl acc
    else
      let sLen : Int := s.length
      let state :=
        if cs < cl + sLen + (if 0 < cl then (sepLen : Int) else 0) then
          if cur ≠ [] then
            let acc' := acc ++ [joinStrip sep cur]
            let pc := popLoop co sepLen cur cl
            (pc.1, pc.2, acc')
          else (cur, cl, acc)
        else (cur, cl, acc)
      mergeGo cs co sepLen sep rest (state.1 ++ [s])
        (state.2.1 + sLen + (if 0 < state.2.1 then (sepLen : Int) else 0)) state.2.2

/-- `_merge_splits`.  `separator_len` is `len(separator)` (0 for the empty
separator, matching the Python conditional). -/
def mergeSplits (cs co : Int) (sep : List Char) (splits : List (List Char)) :
    List (List Char) :=
  mergeGo cs co sep.length sep splits [] 0 []

theorem chooseSepGo_snd_length (dflt text : List Char) (seps : List (List Char)) :
    (chooseSepGo dflt text seps).2 = [] ∨
    (chooseSepGo dflt text seps).2.length < seps.length := by
  induction seps with
  | nil => exact Or.inl rfl
  | cons s rest ih =>
    by_cases h : containsSub s text
    · right; simp [chooseSepGo, h]
    · rcases ih with h' | h'
      · left; simpa [chooseSepGo, h] using h'
      · right
        have he : (chooseSepGo dflt text (s :: rest)).2 = (chooseSepGo dflt text rest).2 := by
          simp [chooseSepGo, h]
        rw [he]; exact Nat.lt_trans h' (by simp)

theorem chooseSep_snd_length (seps : List (List Char)) (text : List Char)
    (h : (chooseSep seps text).2 ≠ []) :
    (chooseSep seps text).2.length < seps.length := by
  rcases chooseSepGo_snd_length (seps.getLastD []) text seps with h' | h'
  · exact absurd h' h
  · exact h'

/-- `RecursiveCharacterTextSplitter.split_text`: choose a separator, split,
recurse into oversized pieces with the remaining separators, then merge.
The recursion descends along the strictly shrinking separator list. -/
def split_text (cs co : Int) (seps : List (List Char)) (text : List Char) :
    List (List Char) :=
  let sp := chooseSep seps text
  let splits := splitWithSep sp.1 text
  let goodSplits := splits.attach.flatMap (fun s =>
    if (s.1.length : Int) < cs then [s.1]
    else if h : sp.2 ≠ [] then split_text cs co sp.2 s.1
    else [s.1])
  mergeSplits cs co sp.1 goodSplits
termination_by seps.length
decreasing_by exact chooseSep_snd_length seps text h

/-- The default separator priority list. -/
def defaultSeps : List (List Char) :=
  [['\n', '\n'], ['\n'], ['。'], ['！'], ['？'], ['；'], ['，'], [' '], []]

end Splitter

/-! ## Streaming chat (`app/api/v1/chat.py`, `chat_stream.generate_stream`)

The upstream SSE lines are modelled after JSON parsing: a `data:` chunk, the
`[DONE]` sentinel, or a skipped line (blank, non-`data:`, or a JSON decode
error).  An exception raised by the upstream while iterating is modelled by a
trailing `streamError`: the `lines` given to the generator are exactly the
lines consumed before the error. -/

namespace SSE

structure Usage where
  promptTokens : Nat
  completionTokens : Nat
  totalTokens : Nat
  deriving DecidableEq

/-- One parsed `data:` payload: `choices[0].delta` plus the chunk's `usage`.
`reasoningContent` is `some s` when the `"reasoning_content"` key is present;
`content` is `chunk.get("content", "")`; `finishReason` is the truthiness of
`chunk.get("finish_reason")`. -/
structure Delta where
  reasoningContent : Option String
  content : String
  finishReason : Bool
  usage : Usage
  deriving DecidableEq

inductive StreamLine where
  | data (d : Delta)
  | done
  | junk
  deriving DecidableEq

inductive Ev where
  | searchGuid
  | context (index : Nat)
  | reasoner
  | think (content : String) (statusv : Nat)
  | textHeader
  | textMsg (msg : String)
  | finished (usage : Usage) (fullAnswer fullReasoning : String)
  deriving DecidableEq

/-- The JSON `type` discriminator of an emitted event. -/
def evType : Ev → String
  | .searchGuid => "searchGuid"
  | .context _ => "context"
  | .reasoner => "reasoner"
  | .think _ _ => "think"
  | .textHeader => "text"
  | .textMsg _ => "text"
  | .finished _ _ _ => "finished"

structure StState where
  fullAnswer : String
  fullReasoning : String
  hasReasoningStarted : Bool
  hasTextStarted : Bool
  deriving DecidableEq

def initStState : StState := ⟨"", "", false, false⟩

/-- Processing of one parsed `data:` chunk: the reasoning branch, the content
branch, then the finish branch, in source order. -/
def procDelta (st : StState) (d : Delta) : StState × List Ev :=
  let stepR :=
    match d.reasoningContent with
    | some r =>
      if r ≠ "" then
        let st1 := { st with fullReasoning := st.fullReasoning ++ r,
                             hasReasoningStarted := true }
        if ¬st1.hasTextStarted then
          ({ st1 with hasTextStarted := true }, [Ev.reasoner, Ev.think r 1])
        else (st1, [Ev.think r 1])
      else (st, [])
    | none => (st, [])
  let st1 := stepR.1
  let stepC :=
    if d.content ≠ "" then
      let st2 := { st1 with fullAnswer := st1.fullAnswer ++ d.content }
      if st2.fullReasoning ≠ "" ∧ ¬st2.hasTextStarted then
        ({ st2 with hasTextStarted := true }, [Ev.reasoner, Ev.textMsg d.content])
      else if ¬st2.hasTextStarted ∧ st2.fullReasoning = "" then
        ({ st2 with hasTextStarted := true }, [Ev.textHeader, Ev.textMsg d.content])
      else (st2, [Ev.textMsg d.content])
    else (st1, [])
  let st2 := stepC.1
  let evsF :=
    if d.finishReason then
      (if st2.fullReasoning ≠ "" then [Ev.think "" 2] else []) ++
        [Ev.finished d.usage st2.fullAnswer st2.fullReasoning]
    else []
  (st2, stepR.2 ++ stepC.2 ++ evsF)

/-- The `for line in response.iter_lines()` loop: skipped lines are ignored,
`[DONE]` breaks, each data chunk is processed in order. -/
def procLines (st : StState) : List StreamLine → List Ev
  | [] => []
  | .done :: _ => []
  | .junk :: rest => procLines st rest
  | .data d :: rest =>
    let pd := procDelta st d
    pd.2 ++ procLines pd.1 rest

/-- `generate_stream`: context preamble, then either the non-200 error text,
or the line loop followed — when the upstream raised — by the exception's
`text` event. -/
def generate_stream (numContexts : Nat) (statusCode : Nat)
    (lines : List StreamLine) (streamError : Option String) : List Ev :=
  let ctxEvs :=
    if numContexts ≠ 0 then
      Ev.searchGuid :: (List.range numContexts).map (fun i => Ev.context (i + 1))
    else []
  ctxEvs ++
    (if statusCode ≠ 200 then
      [Ev.textMsg ("API请求失败(" ++ toString statusCode ++ ")")]
    else
      procLines initStState lines ++
        (match streamError with
         | some e => [Ev.textMsg ("错误: " ++ e)]
         | none => []))

/-- Number of `finished` events in an event list. -/
def countFinished (evs : List Ev) : Nat :=
  (evs.filter (fun e => evType e = "finished")).length

/-- Whether a consumed line is a data chunk carrying `finish_reason`. -/
def isFinishLine : StreamLine → Bool
  | .data d => d.finishReason
  | _ => false

/-- The state after folding a prefix of lines (used to split the loop). -/
def foldSt (st : StState) : List StreamLine → StState
  | [] => st
  | .done :: _ => st
  | .junk :: rest => foldSt st rest
  | .data d :: rest => foldSt (procDelta st d).1 rest

/-- Number of `finish_reason` chunks among the lines before the `[DONE]`
sentinel. -/
def countFinishLines : List StreamLine → Nat
  | [] => 0
  | .done :: _ => 0
  | .junk :: rest => countFinishLines rest
  | .data d :: rest => (if d.finishReason then 1 else 0) + countFinishLines rest

end SSE

/-! # Theorems -/

/-! ## C4 — context-window bounds of `add_message` -/

/-- C4: for a cached message list within bounds, `add_message` (the common
body of `add_user_message` / `add_assistant_message`) keeps the list at most
`2*MAX_CONTEXT_TURNS` long, pops the tail entry exactly when the cap would be
exceeded, and stores `turn_count = min((previous length + 1) / 2,
MAX_CONTEXT_TURNS)`, which never exceeds `MAX_CONTEXT_TURNS`. -/
theorem C4_add_message_window (maxTurns : Nat) (msgs : List RedisCtx.CtxMsg)
    (m : RedisCtx.CtxMsg) (h : msgs.length ≤ 2 * maxTurns) :
    (RedisCtx.add_message maxTurns msgs m).1.length ≤ 2 * maxTurns ∧
    (RedisCtx.add_message maxTurns msgs m).2 =
      min ((msgs.length + 1) / 2) maxTurns ∧
    (RedisCtx.add_message maxTurns msgs m).2 ≤ maxTurns ∧
    (msgs.length = 2 * maxTurns →
      (RedisCtx.add_message maxTurns msgs m).1 = (m :: msgs).dropLast) := by
  unfold RedisCtx.add_message
  refine ⟨?_, rfl, Nat.min_le_right _ _, ?_⟩
  · by_cases hc : maxTurns * 2 ≤ msgs.length
    · simp only [hc, if_true, List.length_dropLast, List.length_cons]
      omega
    · simp only [hc, if_false, List.length_cons]
      omega
  · intro he
    have hc : maxTurns * 2 ≤ msgs.length := by omega
    simp [hc]

/-- C4 witness: a fresh session at the default `MAX_CONTEXT_TURNS = 10`. -/
theorem C4_add_message_window_witness :
    (RedisCtx.add_message 10 [] ⟨"user", "hi"⟩).1.length ≤ 2 * 10 ∧
    (RedisCtx.add_message 10 [] ⟨"user", "hi"⟩).2 = min ((0 + 1) / 2) 10 ∧
    (RedisCtx.add_message 10 [] ⟨"user", "hi"⟩).2 ≤ 10 ∧
    (([] : List RedisCtx.CtxMsg).length = 2 * 10 →
      (RedisCtx.add_message 10 [] ⟨"user", "hi"⟩).1 =
        ([⟨"user", "hi"⟩] : List RedisCtx.CtxMsg).dropLast) :=
  C4_add_message_window 10 [] ⟨"user", "hi"⟩ (by decide)

/-! ## C5 — dense sequences in `save_chat_message` -/

/-- C5: `save_chat_message` appends a row with
`sequence = (current row count for the session) + 1` and sets the session's
`message_count` to the same value, so the invariant "`message_count` equals
the number of `ChatHistory` rows of the session and the `sequence` values are
`{1..message_count}` without gaps" is preserved by every save. -/
theorem C5_save_chat_message_dense (db : SessionStore.DBState)
    (sid role content : String) (hinv : SessionStore.SessInv db) :
    (SessionStore.save_chat_message db sid role content).history =
      db.history ++ [⟨sid, SessionStore.histCount db sid + 1, role, content⟩] ∧
    SessionStore.SessInv (SessionStore.save_chat_message db sid role content) := by
  constructor
  · rfl
  · intro s' hs'
    simp only [SessionStore.save_chat_message, List.mem_map] at hs'
    obtain ⟨s, hs, hfs⟩ := hs'
    obtain ⟨hcount, hperm⟩ := hinv s hs
    have hhist :
        (SessionStore.save_chat_message db sid role content).history =
          db.history ++ [⟨sid, SessionStore.histCount db sid + 1, role, content⟩] := rfl
    by_cases hid : s.sessionId = sid
    · subst hfs
      simp only [hid, if_true]
      have hsid' :
          ({ s with
              messageCount := SessionStore.histCount db sid + 1,
              title := if role = "user" ∧ SessionStore.histCount db sid = 0 then
                SessionStore.titleFrom content else s.title } :
            SessionStore.SessRow).sessionId = sid := hid
      constructor
      · show SessionStore.histCount db sid + 1 = _
        unfold SessionStore.histCount at *
        rw [hhist]
        simp only [hsid', List.filter_append, List.length_append]
        simp [hid]
      · show (SessionStore.seqsOf _ _).Perm (List.range' 1 (SessionStore.histCount db sid + 1))
        unfold SessionStore.seqsOf
        rw [hhist, List.filter_append, List.map_append]
        have hrow : (List.filter (fun r => decide (r.sessionId = sid))
            [(⟨sid, SessionStore.histCount db sid + 1, role, content⟩ : SessionStore.ChatRow)]) =
            [⟨sid, SessionStore.histCount db sid + 1, role, content⟩] := by
          simp
        rw [hrow]
        have hr : List.range' 1 (SessionStore.histCount db sid + 1) =
            List.range' 1 (SessionStore.histCount db sid) ++
              [1 + 1 * SessionStore.histCount db sid] :=
          List.range'_concat 1 (SessionStore.histCount db sid)
        rw [hr]
        refine List.Perm.append ?_ ?_
        · rw [hid] at hcount
          rw [hid, hcount] at hperm
          unfold SessionStore.seqsOf at hperm
          exact hperm
        · simp [Nat.add_comm]

    · subst hfs
      simp only [hid, if_false]
      have hfilter :
          List.filter (fun r => decide (r.sessionId = s.sessionId))
            (db.history ++ [⟨sid, SessionStore.histCount db sid + 1, role, content⟩]) =
          List.filter (fun r => decide (r.sessionId = s.sessionId)) db.history := by
        rw [List.filter_append]
        have : List.filter (fun r => decide (r.sessionId = s.sessionId))
            [(⟨sid, SessionStore.histCount db sid + 1, role, content⟩ : SessionStore.ChatRow)] =
            [] := by
          simp; exact fun he => absurd he.symm hid
        rw [this, List.append_nil]
      constructor
      · show s.messageCount = _
        unfold SessionStore.histCount at *
        rw [hhist, hfilter]
        exact hcount
      · show (SessionStore.seqsOf _ _).Perm _
        unfold SessionStore.seqsOf at *
        rw [hhist, hfilter]
        exact hperm

/-- C5 witness: saving into an empty store that contains one session row. -/
theorem C5_save_chat_message_dense_witness :
    (SessionStore.save_chat_message ⟨[], [⟨"s1", 7, 3, "active", "t", 0⟩]⟩
        "s1" "user" "hello").history =
      ([] : List SessionStore.ChatRow) ++
        [⟨"s1", SessionStore.histCount ⟨[], [⟨"s1", 7, 3, "active", "t", 0⟩]⟩ "s1" + 1,
          "user", "hello"⟩] ∧
    SessionStore.SessInv
      (SessionStore.save_chat_message ⟨[], [⟨"s1", 7, 3, "active", "t", 0⟩]⟩
        "s1" "user" "hello") :=
  C5_save_chat_message_dense ⟨[], [⟨"s1", 7, 3, "active", "t", 0⟩]⟩ "s1" "user" "hello"
    (by intro s hs; simp at hs; subst hs; constructor <;> simp [SessionStore.histCount,
      SessionStore.seqsOf])

/-! ## C9 — token freshness against `password_changed_at` -/

/-- C9: for a request carrying a decodable JWT (issued with a positive `iat`,
as `create_access_token` always stamps) for an existing user with `status = 1`,
`get_current_user` rejects with the password-change 401 exactly when the
user's `password_changed_at` is strictly later than the token's `iat`; in
every other case it returns the user. -/
theorem C9_password_change_revokes (tok : String) (p : Auth.Payload)
    (lookup : Nat → Option Auth.UserRow) (uid : Nat) (u : Auth.UserRow) (t : Int)
    (hsub : p.sub = some uid) (hlook : lookup uid = some u)
    (hstatus : u.statusv = 1) (hiat : p.iat = some t) (hpos : 0 < t) :
    (Auth.get_current_user (some tok) (some p) lookup =
        Auth.AuthResult.err 401 "密码已修改，请重新登录" ↔
      ∃ pc, u.passwordChangedAt = some pc ∧ t < pc) ∧
    (Auth.get_current_user (some tok) (some p) lookup = Auth.AuthResult.ok u ↔
      ¬∃ pc, u.passwordChangedAt = some pc ∧ t < pc) := by
  have ht : t ≠ 0 := by omega
  cases hpc : u.passwordChangedAt with
  | none =>
    constructor <;>
      simp [Auth.get_current_user, hsub, hlook, hstatus, hiat, hpc]
  | some pc =>
    by_cases hlt : t < pc
    · constructor <;>
        simp [Auth.get_current_user, hsub, hlook, hstatus, hiat, hpc, ht, hlt]
    · constructor <;>
        simp [Auth.get_current_user, hsub, hlook, hstatus, hiat, hpc, ht, hlt]

/-- C9 witness: a token issued at `iat = 50` against a password changed at
`100` is rejected; the same facts instantiated concretely. -/
theorem C9_password_change_revokes_witness :
    (Auth.get_current_user (some "tok") (some ⟨some 1, some 50⟩)
        (fun _ => some ⟨1, 1, some 100, "user"⟩) =
      Auth.AuthResult.err 401 "密码已修改，请重新登录" ↔
      ∃ pc, (some 100 : Option Int) = some pc ∧ (50 : Int) < pc) ∧
    (Auth.get_current_user (some "tok") (some ⟨some 1, some 50⟩)
        (fun _ => some ⟨1, 1, some 100, "user"⟩) =
      Auth.AuthResult.ok ⟨1, 1, some 100, "user"⟩ ↔
      ¬∃ pc, (some 100 : Option Int) = some pc ∧ (50 : Int) < pc) :=
  C9_password_change_revokes "tok" ⟨some 1, some 50⟩
    (fun _ => some ⟨1, 1, some 100, "user"⟩) 1 ⟨1, 1, some 100, "user"⟩ 50
    rfl rfl rfl rfl (by decide)

/-! ## C10 — silent session re-creation -/

/-- C10: when the requested `session_id` matches no live session owned by the
caller, `get_or_create_session` (with the robot existing and owned by the
caller) silently creates a brand-new session under the fresh UUID; the 400
session-robot mismatch is raised exactly when a live owned session is found
whose `robot_id` differs. -/
theorem C10_get_or_create_session (robots : List SessResolve.RobotRow)
    (sessions : List SessionStore.SessRow) (userId robotId : Nat)
    (sid freshId dtitle : String) (r : SessResolve.RobotRow)
    (hrobot : robots.find? (fun rb => rb.id = robotId ∧ rb.userId = userId) = some r) :
    (SessResolve.get_session_by_id sessions sid userId = none →
      SessResolve.get_or_create_session robots sessions userId robotId
          (some sid) freshId dtitle =
        Except.ok (⟨freshId, userId, robotId, "active", dtitle, 0⟩, true)) ∧
    (SessResolve.get_or_create_session robots sessions userId robotId
        (some sid) freshId dtitle = Except.error 400 ↔
      ∃ s, SessResolve.get_session_by_id sessions sid userId = some s ∧
        s.robotId ≠ robotId) := by
  have hstep : SessResolve.get_or_create_session robots sessions userId robotId
      (some sid) freshId dtitle =
      (match SessResolve.get_session_by_id sessions sid userId with
       | some s => if s.robotId ≠ robotId then Except.error 400 else Except.ok (s, false)
       | none => (SessResolve.create_session robots userId robotId freshId
           dtitle).map (·, true)) := rfl
  have hcreate : SessResolve.create_session robots userId robotId freshId dtitle =
      Except.ok ⟨freshId, userId, robotId, "active", dtitle, 0⟩ := by
    unfold SessResolve.create_session
    rw [hrobot]
  constructor
  · intro hnone
    rw [hstep, hnone, hcreate]
    rfl
  · rw [hstep]
    cases hfind : SessResolve.get_session_by_id sessions sid userId with
    | none =>
      rw [hcreate]
      simp [Except.map]
    | some s =>
      by_cases hne : s.robotId = robotId
      · simp only [hne, ne_eq, not_true_eq_false, if_false]
        constructor
        · intro hcontra; exact absurd hcontra (by simp)
        · rintro ⟨s', hs', hne'⟩
          cases hs'
          exact absurd hne hne'
      · simp only [ne_eq, hne, not_false_eq_true, if_true]
        constructor
        · intro _; exact ⟨s, rfl, hne⟩
        · intro _; trivial

/-- C10 witness: an unknown session id with a valid owned robot yields a new
session; no 400 is raised. -/
theorem C10_get_or_create_session_witness :
    (SessResolve.get_session_by_id [] "nosuch" 7 = none →
      SessResolve.get_or_create_session [⟨3, 7⟩] [] 7 3 (some "nosuch") "fresh" "t" =
        Except.ok (⟨"fresh", 7, 3, "active", "t", 0⟩, true)) ∧
    (SessResolve.get_or_create_session [⟨3, 7⟩] [] 7 3 (some "nosuch") "fresh" "t" =
        Except.error 400 ↔
      ∃ s, SessResolve.get_session_by_id [] "nosuch" 7 = some s ∧ s.robotId ≠ 3) :=
  C10_get_or_create_session [⟨3, 7⟩] [] 7 3 "nosuch" "fresh" "t" ⟨3, 7⟩ (by decide)

/-! ## C6 — per-query recall metrics -/

/-- C6 counterexample: two retrieved chunks of the *same* document above the
threshold.  The worker divides by the length of the id *list* (here 2), so its
precision is `1/2`, while the claimed `|R∩E|/|R|` over the id *set* is `1`. -/
theorem C6_precision_counterexample :
    (Recall.queryMetrics [⟨1, 9/10⟩, ⟨1, 4/5⟩] [1] (1/2)).precisionv = 1/2 ∧
    Recall.specPrecision [⟨1, 9/10⟩, ⟨1, 4/5⟩] [1] (1/2) = 1 ∧
    ((1 : ℚ)/2) ≠ 1 := by
  have hrids : Recall.retrievedIds [⟨1, 9/10⟩, ⟨1, 4/5⟩] (1/2) = [1, 1] := by
    norm_num [Recall.retrievedIds]
  refine ⟨?_, ?_, by norm_num⟩
  · simp only [Recall.queryMetrics, hrids]
    norm_num <;> simp
  · simp only [Recall.specPrecision, Recall.specR, hrids]
    norm_num <;> simp

/-- C6 amended: with expected ids present the worker computes
`recall = |R∩E| / len(expected list)`, `precision = |R∩E| / len(filtered
retrieved id list)` (0 when that list is empty), `F1` the harmonic mean (0
when both are 0), and `top_n_hit` iff some expected id occurs in the
unfiltered retrieved list; these agree with the claimed set formulas
`|R∩E|/|E|` and `|R∩E|/|R|` whenever the filtered retrieved id list and the
expected list are duplicate-free.  With no expected ids, `top_n_hit = (R ≠ ∅)`
and recall = precision = F1 = 1 iff `top_n_hit`, else 0. -/
theorem C6_recall_metrics (retrieved : List Recall.RCtx) (expected : List Nat)
    (threshold : ℚ) :
    (expected ≠ [] →
      (Recall.queryMetrics retrieved expected threshold).recallv =
        (((Recall.retrievedIds retrieved threshold).toFinset ∩
          expected.toFinset).card : ℚ) / (expected.length : ℚ) ∧
      (Recall.queryMetrics retrieved expected threshold).precisionv =
        (if Recall.retrievedIds retrieved threshold ≠ [] then
          (((Recall.retrievedIds retrieved threshold).toFinset ∩
            expected.toFinset).card : ℚ) /
            ((Recall.retrievedIds retrieved threshold).length : ℚ)
         else 0) ∧
      (Recall.queryMetrics retrieved expected threshold).f1v =
        (if 0 < (Recall.queryMetrics retrieved expected threshold).recallv +
            (Recall.queryMetrics retrieved expected threshold).precisionv then
          2 * ((Recall.queryMetrics retrieved expected threshold).precisionv *
              (Recall.queryMetrics retrieved expected threshold).recallv) /
            ((Recall.queryMetrics retrieved expected threshold).precisionv +
              (Recall.queryMetrics retrieved expected threshold).recallv)
         else 0) ∧
      ((Recall.queryMetrics retrieved expected threshold).topNHit = true ↔
        ∃ e ∈ expected, e ∈ retrieved.map (·.documentId))) ∧
    (expected ≠ [] → (Recall.retrievedIds retrieved threshold).Nodup →
      expected.Nodup →
      (Recall.queryMetrics retrieved expected threshold).recallv =
        Recall.specRecall retrieved expected threshold ∧
      (Recall.queryMetrics retrieved expected threshold).precisionv =
        Recall.specPrecision retrieved expected threshold) ∧
    (expected = [] →
      ((Recall.queryMetrics retrieved expected threshold).topNHit = true ↔
        Recall.retrievedIds retrieved threshold ≠ []) ∧
      (Recall.queryMetrics retrieved expected threshold).recallv =
        (if Recall.retrievedIds retrieved threshold ≠ [] then 1 else 0) ∧
      (Recall.queryMetrics retrieved expected threshold).precisionv =
        (if Recall.retrievedIds retrieved threshold ≠ [] then 1 else 0) ∧
      (Recall.queryMetrics retrieved expected threshold).f1v =
        (if Recall.retrievedIds retrieved threshold ≠ [] then 1 else 0)) := by
  refine ⟨?_, ?_, ?_⟩
  · intro hne
    refine ⟨?_, ?_, ?_, ?_⟩
    · simp [Recall.queryMetrics, hne]
    · simp [Recall.queryMetrics, hne]
    · simp only [Recall.queryMetrics, hne, ne_eq, not_false_eq_true, if_true]
    · simp [Recall.queryMetrics, hne, List.any_eq_true, List.elem_iff]
  · intro hne hnr hnx
    constructor
    · have h1 : (Recall.queryMetrics retrieved expected threshold).recallv =
          (((Recall.retrievedIds retrieved threshold).toFinset ∩
            expected.toFinset).card : ℚ) / (expected.length : ℚ) := by
        simp [Recall.queryMetrics, hne]
      rw [h1]
      unfold Recall.specRecall Recall.specR
      rw [List.toFinset_card_of_nodup hnx]
    · have h2 : (Recall.queryMetrics retrieved expected threshold).precisionv =
          (if Recall.retrievedIds retrieved threshold ≠ [] then
            (((Recall.retrievedIds retrieved threshold).toFinset ∩
              expected.toFinset).card : ℚ) /
              ((Recall.retrievedIds retrieved threshold).length : ℚ)
           else 0) := by
        simp [Recall.queryMetrics, hne]
      rw [h2]
      unfold Recall.specPrecision Recall.specR
      by_cases hr : Recall.retrievedIds retrieved threshold = []
      · simp [hr]
      · have hne2 : (Recall.retrievedIds retrieved threshold).toFinset ≠ ∅ := by
          simpa [List.toFinset_eq_empty_iff] using hr
        rw [List.toFinset_card_of_nodup hnr]
        simp [hr, hne2]
  · intro hemp
    subst hemp
    by_cases hr : Recall.retrievedIds retrieved threshold = []
    · simp [Recall.queryMetrics, hr]
    · simp [Recall.queryMetrics, hr]

/-- C6 witness: one retrieved chunk of document 1 above threshold, expected
`[1]` — both id lists are duplicate-free, so code and spec formulas agree. -/
theorem C6_recall_metrics_witness :
    (Recall.queryMetrics [⟨1, 9/10⟩] [1] (1/2)).recallv =
      Recall.specRecall [⟨1, 9/10⟩] [1] (1/2) ∧
    (Recall.queryMetrics [⟨1, 9/10⟩] [1] (1/2)).precisionv =
      Recall.specPrecision [⟨1, 9/10⟩] [1] (1/2) :=
  (C6_recall_metrics [⟨1, 9/10⟩] [1] (1/2)).2.1 (by decide)
    (by norm_num [Recall.retrievedIds]) (by decide)

/-! ## RRF merge lemmas (towards C2 and C3) -/

namespace Rag

theorem keysOf_append (a b : List Merged) :
    keysOf (a ++ b) = keysOf a ++ keysOf b := by
  simp [keysOf]

theorem mem_keysOf_of_mem {m : Merged} {acc : List Merged} (h : m ∈ acc) :
    m.chunkId ∈ keysOf acc :=
  List.mem_map_of_mem _ h

theorem keysOf_map_update (acc : List Merged) (cid : String) (f : Merged → Merged)
    (hf : ∀ m, (f m).chunkId = m.chunkId) :
    keysOf (acc.map (fun m => if m.chunkId = cid then f m else m)) = keysOf acc := by
  unfold keysOf
  rw [List.map_map]
  apply List.map_congr_left
  intro m _
  by_cases h : m.chunkId = cid
  · simp [Function.comp, h, hf]
  · simp [Function.comp, h]

theorem rankOf_eq_none_iff {cid : String} {l : List RawResult} :
    rankOf cid l = none ↔ cid ∉ l.map (·.chunkId) := by
  induction l with
  | nil => simp [rankOf]
  | cons r rs ih =>
    by_cases h : r.chunkId = cid
    · simp [rankOf, h]
    · simp only [rankOf, h, if_false, List.map_cons, List.mem_cons]
      rw [Option.map_eq_none']
      rw [ih]
      constructor
      · intro hn hc
        rcases hc with hc | hc
        · exact h hc.symm
        · exact hn hc
      · intro hn
        exact fun hc => hn (Or.inr hc)

theorem rankOf_mem_some {cid : String} {l : List RawResult}
    (h : cid ∈ l.map (·.chunkId)) : ∃ i, rankOf cid l = some i := by
  cases hr : rankOf cid l with
  | none => exact absurd (rankOf_eq_none_iff.mp hr) (by simpa using h)
  | some i => exact ⟨i, rfl⟩

theorem rankOf_some_mem {cid : String} {l : List RawResult} {i : Nat}
    (h : rankOf cid l = some i) : cid ∈ l.map (·.chunkId) := by
  by_contra hc
  rw [rankOf_eq_none_iff.mpr hc] at h
  cases h

theorem addVector_not_mem (acc : List Merged) (k : Nat) (r : RawResult)
    (h : r.chunkId ∉ keysOf acc) :
    addVector acc k r = acc ++ [vecEntry r k] := by
  unfold addVector
  rw [if_neg (fun hc => h (List.elem_iff.mp hc))]
  rw [List.map_append]
  congr 1
  · have : ∀ m ∈ acc, (if m.chunkId = r.chunkId then
        { m with rrfScore := m.rrfScore + 1 / (60 + (k : ℚ) + 1) } else m) = m := by
      intro m hm
      rw [if_neg]
      intro he
      exact h (he ▸ mem_keysOf_of_mem hm)
    rw [List.map_congr_left this]
    simp
  · simp [vecEntry]

theorem addVectorList_eq (vec : List RawResult) (acc : List Merged) (k : Nat)
    (hnd : (vec.map (·.chunkId)).Nodup)
    (hdisj : ∀ c ∈ vec.map (·.chunkId), c ∉ keysOf acc) :
    addVectorList acc k vec = acc ++ vecEntries k vec := by
  induction vec generalizing acc k with
  | nil => simp [addVectorList, vecEntries]
  | cons r rs ih =>
    obtain ⟨hrn, hnd'⟩ : r.chunkId ∉ rs.map (·.chunkId) ∧ (rs.map (·.chunkId)).Nodup := by
      simpa [List.nodup_cons] using hnd
    have hr : r.chunkId ∉ keysOf acc := hdisj r.chunkId (by simp)
    show addVectorList (addVector acc k r) (k + 1) rs = _
    rw [addVector_not_mem acc k r hr]
    rw [ih (acc ++ [vecEntry r k]) (k + 1) hnd' ?_]
    · simp [vecEntries]
    · intro c hc
      rw [keysOf_append]
      simp only [List.mem_append]
      rintro (hca | hcb)
      · exact hdisj c (by simp [hc]) hca
      · have : c = r.chunkId := by simpa [keysOf, vecEntry] using hcb
        exact hrn (this ▸ hc)

theorem keysOf_vecEntries (k : Nat) (vec : List RawResult) :
    keysOf (vecEntries k vec) = vec.map (·.chunkId) := by
  induction vec generalizing k with
  | nil => simp [vecEntries, keysOf]
  | cons r rs ih => simp [vecEntries, keysOf, vecEntry] at ih ⊢; exact ih (k + 1)

theorem vecEntries_char (vec : List RawResult) (k : Nat)
    (hnd : (vec.map (·.chunkId)).Nodup) :
    ∀ m ∈ vecEntries k vec,
      m.source = "vector" ∧
      ∃ i, rankOf m.chunkId vec = some i ∧
        m.rrfScore = 1 / (60 + ((k + i : Nat) : ℚ) + 1) := by
  induction vec generalizing k with
  | nil => simp [vecEntries]
  | cons r rs ih =>
    obtain ⟨hrn, hnd'⟩ : r.chunkId ∉ rs.map (·.chunkId) ∧ (rs.map (·.chunkId)).Nodup := by
      simpa [List.nodup_cons] using hnd
    intro m hm
    rcases (by simpa [vecEntries] using hm :
        m = vecEntry r k ∨ m ∈ vecEntries (k + 1) rs) with hm' | hm'
    · subst hm'
      exact ⟨rfl, 0, by simp [rankOf, vecEntry], by simp [vecEntry]⟩
    · obtain ⟨hsrc, i, hrank, hrrf⟩ := ih (k + 1) hnd' m hm'
      refine ⟨hsrc, i + 1, ?_, ?_⟩
      · have hne : ¬ r.chunkId = m.chunkId := by
          intro he
          apply hrn
          rw [he]
          have := mem_keysOf_of_mem hm'
          rwa [keysOf_vecEntries] at this
        simp [rankOf, hne, hrank]
      · rw [hrrf]
        congr 2
        push_cast
        ring

end Rag

namespace Rag

theorem addKeyword_mem (acc : List Merged) (k : Nat) (r : RawResult)
    (hin : r.chunkId ∈ keysOf acc) :
    addKeyword acc k r = acc.map (fun m =>
      if m.chunkId = r.chunkId then
        { m with keywordScore := r.score, source := "hybrid",
                 rrfScore := m.rrfScore + 1 / (60 + (k : ℚ) + 1) }
      else m) := by
  unfold addKeyword
  rw [if_pos (List.elem_iff.mpr hin)]
  rw [List.map_map]
  apply List.map_congr_left
  intro m _
  by_cases h : m.chunkId = r.chunkId
  · simp [Function.comp, h]
  · simp [Function.comp, h]

theorem addKeyword_not_mem (acc : List Merged) (k : Nat) (r : RawResult)
    (hout : r.chunkId ∉ keysOf acc) :
    addKeyword acc k r = acc ++
      [⟨r.chunkId, r.documentId, r.knowledgeId, 0, r.score,
        1 / (60 + (k : ℚ) + 1), "keyword"⟩] := by
  unfold addKeyword
  rw [if_neg (fun hc => hout (List.elem_iff.mp hc))]
  rw [List.map_append]
  congr 1
  · have : ∀ m ∈ acc, (if m.chunkId = r.chunkId then
        { m with rrfScore := m.rrfScore + 1 / (60 + (k : ℚ) + 1) } else m) = m := by
      intro m hm
      rw [if_neg]
      intro he
      exact hout (he ▸ mem_keysOf_of_mem hm)
    rw [List.map_congr_left this]
    simp
  · simp

theorem mem_keysOf_addKeyword (acc : List Merged) (k : Nat) (r : RawResult)
    (c : String) :
    c ∈ keysOf (addKeyword acc k r) ↔ c ∈ keysOf acc ∨ c = r.chunkId := by
  by_cases hin : r.chunkId ∈ keysOf acc
  · rw [addKeyword_mem acc k r hin, keysOf_map_update]
    · constructor
      · exact Or.inl
      · rintro (hc | hc)
        · exact hc
        · exact hc ▸ hin
    · intro m
      by_cases h : m.chunkId = r.chunkId <;> simp [h]
  · rw [addKeyword_not_mem acc k r hin, keysOf_append]
    simp [keysOf]

theorem nodup_keysOf_addKeyword (acc : List Merged) (k : Nat) (r : RawResult)
    (h : (keysOf acc).Nodup) : (keysOf (addKeyword acc k r)).Nodup := by
  by_cases hin : r.chunkId ∈ keysOf acc
  · rw [addKeyword_mem acc k r hin, keysOf_map_update]
    · exact h
    · intro m
      by_cases hm : m.chunkId = r.chunkId <;> simp [hm]
  · rw [addKeyword_not_mem acc k r hin, keysOf_append]
    simp only [keysOf, List.map_cons, List.map_nil]
    rw [List.nodup_append]
    refine ⟨h, by simp, ?_⟩
    intro c hc
    simp only [List.mem_singleton]
    intro hce
    exact hin (hce ▸ hc)

end Rag

namespace Rag

theorem addKeywordList_char (rs : List RawResult) :
    ∀ (k : Nat) (acc : List Merged),
      (keysOf acc).Nodup → (rs.map (·.chunkId)).Nodup →
      ∀ m' ∈ addKeywordList acc k rs,
        (∃ m ∈ acc, m'.chunkId = m.chunkId ∧
          ((rankOf m.chunkId rs = none ∧ m' = m) ∨
           (∃ i, rankOf m.chunkId rs = some i ∧
             m'.rrfScore = m.rrfScore + 1 / (60 + ((k + i : Nat) : ℚ) + 1) ∧
             m'.source = "hybrid"))) ∨
        (m'.chunkId ∉ keysOf acc ∧
          ∃ i, rankOf m'.chunkId rs = some i ∧
            m'.rrfScore = 1 / (60 + ((k + i : Nat) : ℚ) + 1) ∧
            m'.source = "keyword") := by
  induction rs with
  | nil =>
    intro k acc _ _ m' hm'
    exact Or.inl ⟨m', by simpa [addKeywordList] using hm', rfl, Or.inl ⟨rfl, rfl⟩⟩
  | cons r rest ih =>
    intro k acc hacc hrs m' hm'
    obtain ⟨hro, hrest⟩ :
        r.chunkId ∉ rest.map (·.chunkId) ∧ (rest.map (·.chunkId)).Nodup := by
      simpa [List.nodup_cons] using hrs
    have hm'' : m' ∈ addKeywordList (addKeyword acc k r) (k + 1) rest := hm'
    have hacc' := nodup_keysOf_addKeyword acc k r hacc
    rcases ih (k + 1) (addKeyword acc k r) hacc' hrest m' hm'' with
      ⟨m₁, hm₁, hcid, hbr⟩ | ⟨hnotin, i, hri, hrrf, hsrc⟩
    · by_cases hin : r.chunkId ∈ keysOf acc
      · rw [addKeyword_mem acc k r hin] at hm₁
        obtain ⟨m₀, hm₀, hup⟩ := List.mem_map.mp hm₁
        by_cases h0 : m₀.chunkId = r.chunkId
        · have hm₁eq : m₁ =
              { m₀ with keywordScore := r.score, source := "hybrid",
                        rrfScore := m₀.rrfScore + 1 / (60 + (k : ℚ) + 1) } := by
            rw [← hup, if_pos h0]
          have hcid1 : m₁.chunkId = m₀.chunkId := by rw [hm₁eq]
          have hnone : rankOf m₁.chunkId rest = none := by
            apply rankOf_eq_none_iff.mpr
            rw [hcid1, h0]
            exact hro
          rcases hbr with ⟨-, hm'eq⟩ | ⟨j, hj, -, -⟩
          · refine Or.inl ⟨m₀, hm₀, ?_, Or.inr ⟨0, ?_, ?_, ?_⟩⟩
            · rw [hm'eq, hcid1]
            · simp [rankOf, h0]
            · rw [hm'eq, hm₁eq]
              show m₀.rrfScore + _ = m₀.rrfScore + _
              norm_num
            · rw [hm'eq, hm₁eq]
          · rw [hnone] at hj
            cases hj
        · have hm₁eq : m₁ = m₀ := by rw [← hup, if_neg h0]
          have hm₁mem : m₁ ∈ acc := hm₁eq ▸ hm₀
          have hhead : ¬ r.chunkId = m₁.chunkId := fun he =>
            h0 (by rw [hm₁eq] at he; exact he.symm)
          rcases hbr with ⟨hnone, hm'eq⟩ | ⟨j, hj, hrrf2, hsrc2⟩
          · exact Or.inl ⟨m₁, hm₁mem, hcid,
              Or.inl ⟨by simp [rankOf, hhead, hnone], hm'eq⟩⟩
          · refine Or.inl ⟨m₁, hm₁mem, hcid,
              Or.inr ⟨j + 1, by simp [rankOf, hhead, hj], ?_, hsrc2⟩⟩
            rw [hrrf2]
            congr 2
            push_cast
            ring
      · rw [addKeyword_not_mem acc k r hin] at hm₁
        rcases List.mem_append.mp hm₁ with hm₁a | hm₁b
        · have hhead : ¬ r.chunkId = m₁.chunkId := fun he =>
            hin (he ▸ mem_keysOf_of_mem hm₁a)
          rcases hbr with ⟨hnone, hm'eq⟩ | ⟨j, hj, hrrf2, hsrc2⟩
          · exact Or.inl ⟨m₁, hm₁a, hcid,
              Or.inl ⟨by simp [rankOf, hhead, hnone], hm'eq⟩⟩
          · refine Or.inl ⟨m₁, hm₁a, hcid,
              Or.inr ⟨j + 1, by simp [rankOf, hhead, hj], ?_, hsrc2⟩⟩
            rw [hrrf2]
            congr 2
            push_cast
            ring
        · have hm₁eq : m₁ = ⟨r.chunkId, r.documentId, r.knowledgeId, 0, r.score,
              1 / (60 + (k : ℚ) + 1), "keyword"⟩ := by simpa using hm₁b
          have hcid1 : m₁.chunkId = r.chunkId := by rw [hm₁eq]
          have hnone : rankOf m₁.chunkId rest = none :=
            rankOf_eq_none_iff.mpr (by rw [hcid1]; exact hro)
          rcases hbr with ⟨-, hm'eq⟩ | ⟨j, hj, -, -⟩
          · refine Or.inr ⟨?_, 0, ?_, ?_, ?_⟩
            · rw [hm'eq, hcid1]
              exact hin
            · rw [hm'eq, hcid1]
              simp [rankOf]
            · rw [hm'eq, hm₁eq]
              show (1 : ℚ) / _ = 1 / _
              norm_num
            · rw [hm'eq, hm₁eq]
          · rw [hnone] at hj
            cases hj
    · have hkacc : m'.chunkId ∉ keysOf acc := fun hc =>
        hnotin ((mem_keysOf_addKeyword acc k r m'.chunkId).mpr (Or.inl hc))
      have hne : ¬ r.chunkId = m'.chunkId := fun he =>
        hnotin ((mem_keysOf_addKeyword acc k r m'.chunkId).mpr (Or.inr he.symm))
      refine Or.inr ⟨hkacc, i + 1, by simp [rankOf, hne, hri], ?_, hsrc⟩
      rw [hrrf]
      congr 2
      push_cast
      ring

end Rag

namespace Rag

theorem mem_keysOf_addVector (acc : List Merged) (k : Nat) (r : RawResult)
    (c : String) :
    c ∈ keysOf (addVector acc k r) ↔ c ∈ keysOf acc ∨ c = r.chunkId := by
  unfold addVector
  by_cases hin : (keysOf acc).contains r.chunkId
  · rw [if_pos hin, keysOf_map_update]
    · constructor
      · exact Or.inl
      · rintro (hc | hc)
        · exact hc
        · exact hc ▸ List.elem_iff.mp hin
    · intro m
      by_cases h : m.chunkId = r.chunkId <;> simp [h]
  · rw [if_neg hin, keysOf_map_update]
    · rw [keysOf_append]
      simp [keysOf]
    · intro m
      by_cases h : m.chunkId = r.chunkId <;> simp [h]

theorem mem_keysOf_addVectorList (vec : List RawResult) :
    ∀ (k : Nat) (acc : List Merged) (c : String),
      c ∈ keysOf (addVectorList acc k vec) ↔
        c ∈ keysOf acc ∨ c ∈ vec.map (·.chunkId) := by
  induction vec with
  | nil => intro k acc c; simp [addVectorList]
  | cons r rs ih =>
    intro k acc c
    show c ∈ keysOf (addVectorList (addVector acc k r) (k + 1) rs) ↔ _
    rw [ih (k + 1) (addVector acc k r) c, mem_keysOf_addVector]
    simp only [List.map_cons, List.mem_cons]
    tauto

theorem mem_keysOf_addKeywordList (rs : List RawResult) :
    ∀ (k : Nat) (acc : List Merged) (c : String),
      c ∈ keysOf (addKeywordList acc k rs) ↔
        c ∈ keysOf acc ∨ c ∈ rs.map (·.chunkId) := by
  induction rs with
  | nil => intro k acc c; simp [addKeywordList]
  | cons r rest ih =>
    intro k acc c
    show c ∈ keysOf (addKeywordList (addKeyword acc k r) (k + 1) rest) ↔ _
    rw [ih (k + 1) (addKeyword acc k r) c, mem_keysOf_addKeyword]
    simp only [List.map_cons, List.mem_cons]
    tauto

theorem mem_keysOf_mergeScores (vec kw : List RawResult) (c : String) :
    c ∈ keysOf (mergeScores vec kw) ↔
      c ∈ vec.map (·.chunkId) ∨ c ∈ kw.map (·.chunkId) := by
  unfold mergeScores
  rw [mem_keysOf_addKeywordList, mem_keysOf_addVectorList]
  simp [keysOf]

/-- The sources produced by the merge are only `vector`, `keyword`, `hybrid`. -/
theorem sourceOk_addVector (acc : List Merged) (k : Nat) (r : RawResult)
    (h : ∀ m ∈ acc, m.source = "vector" ∨ m.source = "keyword" ∨ m.source = "hybrid") :
    ∀ m ∈ addVector acc k r,
      m.source = "vector" ∨ m.source = "keyword" ∨ m.source = "hybrid" := by
  unfold addVector
  intro m hm
  by_cases hin : (keysOf acc).contains r.chunkId
  · rw [if_pos hin] at hm
    obtain ⟨m₀, hm₀, hup⟩ := List.mem_map.mp hm
    by_cases h0 : m₀.chunkId = r.chunkId
    · rw [← hup, if_pos h0]
      exact h m₀ hm₀
    · rw [← hup, if_neg h0]
      exact h m₀ hm₀
  · rw [if_neg hin] at hm
    obtain ⟨m₀, hm₀, hup⟩ := List.mem_map.mp hm
    rcases List.mem_append.mp hm₀ with hma | hmb
    · by_cases h0 : m₀.chunkId = r.chunkId
      · rw [← hup, if_pos h0]
        exact h m₀ hma
      · rw [← hup, if_neg h0]
        exact h m₀ hma
    · have : m₀ = ⟨r.chunkId, r.documentId, r.knowledgeId, r.score, 0, 0, "vector"⟩ := by
        simpa using hmb
      subst this
      by_cases h0 : (⟨r.chunkId, r.documentId, r.knowledgeId, r.score, 0, 0,
          "vector"⟩ : Merged).chunkId = r.chunkId
      · rw [← hup, if_pos h0]
        exact Or.inl rfl
      · rw [← hup, if_neg h0]
        exact Or.inl rfl

theorem sourceOk_addKeyword (acc : List Merged) (k : Nat) (r : RawResult)
    (h : ∀ m ∈ acc, m.source = "vector" ∨ m.source = "keyword" ∨ m.source = "hybrid") :
    ∀ m ∈ addKeyword acc k r,
      m.source = "vector" ∨ m.source = "keyword" ∨ m.source = "hybrid" := by
  intro m hm
  by_cases hin : r.chunkId ∈ keysOf acc
  · rw [addKeyword_mem acc k r hin] at hm
    obtain ⟨m₀, hm₀, hup⟩ := List.mem_map.mp hm
    by_cases h0 : m₀.chunkId = r.chunkId
    · rw [← hup, if_pos h0]
      exact Or.inr (Or.inr rfl)
    · rw [← hup, if_neg h0]
      exact h m₀ hm₀
  · rw [addKeyword_not_mem acc k r hin] at hm
    rcases List.mem_append.mp hm with hma | hmb
    · exact h m hma
    · have : m = ⟨r.chunkId, r.documentId, r.knowledgeId, 0, r.score,
          1 / (60 + (k : ℚ) + 1), "keyword"⟩ := by simpa using hmb
      subst this
      exact Or.inr (Or.inl rfl)

theorem sourceOk_addVectorList (vec : List RawResult) :
    ∀ (k : Nat) (acc : List Merged),
      (∀ m ∈ acc, m.source = "vector" ∨ m.source = "keyword" ∨ m.source = "hybrid") →
      ∀ m ∈ addVectorList acc k vec,
        m.source = "vector" ∨ m.source = "keyword" ∨ m.source = "hybrid" := by
  induction vec with
  | nil => intro k acc h m hm; exact h m (by simpa [addVectorList] using hm)
  | cons r rs ih =>
    intro k acc h m hm
    exact ih (k + 1) (addVector acc k r) (sourceOk_addVector acc k r h) m hm

theorem sourceOk_addKeywordList (rs : List RawResult) :
    ∀ (k : Nat) (acc : List Merged),
      (∀ m ∈ acc, m.source = "vector" ∨ m.source = "keyword" ∨ m.source = "hybrid") →
      ∀ m ∈ addKeywordList acc k rs,
        m.source = "vector" ∨ m.source = "keyword" ∨ m.source = "hybrid" := by
  induction rs with
  | nil => intro k acc h m hm; exact h m (by simpa [addKeywordList] using hm)
  | cons r rest ih =>
    intro k acc h m hm
    exact ih (k + 1) (addKeyword acc k r) (sourceOk_addKeyword acc k r h) m hm

theorem sourceOk_mergeScores (vec kw : List RawResult) :
    ∀ m ∈ mergeScores vec kw,
      m.source = "vector" ∨ m.source = "keyword" ∨ m.source = "hybrid" := by
  unfold mergeScores
  exact sourceOk_addKeywordList kw 0 _
    (sourceOk_addVectorList vec 0 [] (by simp))

theorem insertByRRF_perm (x : Merged) (l : List Merged) :
    (insertByRRF x l).Perm (x :: l) := by
  induction l with
  | nil => simp [insertByRRF]
  | cons y ys ih =>
    unfold insertByRRF
    by_cases h : y.rrfScore < x.rrfScore
    · rw [if_pos h]
    · rw [if_neg h]
      exact (ih.cons y).trans (List.Perm.swap x y ys)

theorem sortByRRF_perm (l : List Merged) : (sortByRRF l).Perm l := by
  induction l with
  | nil => simp [sortByRRF]
  | cons x xs ih =>
    unfold sortByRRF
    exact (insertByRRF_perm x (sortByRRF xs)).trans (ih.cons x)

theorem insertByRRF_sorted (x : Merged) (l : List Merged)
    (h : l.Sorted (fun a b => b.rrfScore ≤ a.rrfScore)) :
    (insertByRRF x l).Sorted (fun a b => b.rrfScore ≤ a.rrfScore) := by
  induction l with
  | nil => simp [insertByRRF]
  | cons y ys ih =>
    unfold insertByRRF
    by_cases hc : y.rrfScore < x.rrfScore
    · rw [if_pos hc]
      refine List.sorted_cons.mpr ⟨?_, h⟩
      intro b hb
      rcases List.mem_cons.mp hb with hb | hb
      · exact le_of_lt (hb ▸ hc)
      · exact le_trans ((List.sorted_cons.mp h).1 b hb) (le_of_lt hc)
    · rw [if_neg hc]
      obtain ⟨hy, hys⟩ := List.sorted_cons.mp h
      refine List.sorted_cons.mpr ⟨?_, ih hys⟩
      intro b hb
      have := (insertByRRF_perm x ys).mem_iff.mp hb
      rcases List.mem_cons.mp this with hb' | hb'
      · exact hb' ▸ le_of_not_lt hc
      · exact hy b hb'

theorem sortByRRF_sorted (l : List Merged) :
    (sortByRRF l).Sorted (fun a b => b.rrfScore ≤ a.rrfScore) := by
  induction l with
  | nil => simp [sortByRRF]
  | cons x xs ih =>
    unfold sortByRRF
    exact insertByRRF_sorted x (sortByRRF xs) ih

end Rag

namespace Rag

/-- Entry-wise characterisation of the fused table on duplicate-free legs. -/
theorem mergeScores_char (vec kw : List RawResult)
    (hv : (vec.map (·.chunkId)).Nodup) (hk : (kw.map (·.chunkId)).Nodup) :
    ∀ m ∈ mergeScores vec kw,
      m.rrfScore = rrfContrib vec m.chunkId + rrfContrib kw m.chunkId ∧
      (m.source = "hybrid" ↔
        m.chunkId ∈ vec.map (·.chunkId) ∧ m.chunkId ∈ kw.map (·.chunkId)) := by
  intro m hm
  have hms : mergeScores vec kw = addKeywordList (vecEntries 0 vec) 0 kw := by
    unfold mergeScores
    rw [addVectorList_eq vec [] 0 hv (by simp [keysOf]), List.nil_append]
  rw [hms] at hm
  have hknd : (keysOf (vecEntries 0 vec)).Nodup := by
    rw [keysOf_vecEntries]
    exact hv
  rcases addKeywordList_char kw 0 (vecEntries 0 vec) hknd hk m hm with
    ⟨m₁, hm₁, hcid, hbr⟩ | ⟨hnot, i, hri, hrrf, hsrc⟩
  · obtain ⟨hsrc1, iv, hrv, hrrfv⟩ := vecEntries_char vec 0 hv m₁ hm₁
    have hmemv : m.chunkId ∈ vec.map (·.chunkId) := by
      rw [hcid]
      exact rankOf_some_mem hrv
    have hcontribv : rrfContrib vec m.chunkId = 1 / (60 + (iv : ℚ) + 1) := by
      unfold rrfContrib
      rw [hcid, hrv]
    rcases hbr with ⟨hnone, hmeq⟩ | ⟨ik, hrk, hrrfk, hsrck⟩
    · have hnk : m.chunkId ∉ kw.map (·.chunkId) := by
        rw [hcid]
        exact rankOf_eq_none_iff.mp hnone
      have hcontribk : rrfContrib kw m.chunkId = 0 := by
        unfold rrfContrib
        rw [hcid, hnone]
      constructor
      · rw [hcid] at hcontribv hcontribk
        rw [hmeq, hrrfv, hcontribv, hcontribk]
        push_cast
        ring
      · constructor
        · intro hsh
          rw [hmeq, hsrc1] at hsh
          exact absurd hsh (by decide)
        · rintro ⟨-, h2⟩
          exact absurd h2 hnk
    · have hmemk : m.chunkId ∈ kw.map (·.chunkId) := by
        rw [hcid]
        exact rankOf_some_mem hrk
      have hcontribk : rrfContrib kw m.chunkId = 1 / (60 + (ik : ℚ) + 1) := by
        unfold rrfContrib
        rw [hcid, hrk]
      constructor
      · rw [hrrfk, hrrfv, hcontribv, hcontribk]
        push_cast
        ring
      · simp [hsrck, hmemv, hmemk]
  · have hnv : m.chunkId ∉ vec.map (·.chunkId) := by
      rw [← keysOf_vecEntries 0 vec]
      exact hnot
    have hcontribv : rrfContrib vec m.chunkId = 0 := by
      unfold rrfContrib
      rw [rankOf_eq_none_iff.mpr hnv]
    have hcontribk : rrfContrib kw m.chunkId = 1 / (60 + (i : ℚ) + 1) := by
      unfold rrfContrib
      rw [hri]
    constructor
    · rw [hrrf, hcontribv, hcontribk]
      push_cast
      ring
    · constructor
      · intro hsh
        rw [hsrc] at hsh
        exact absurd hsh (by decide)
      · rintro ⟨h1, -⟩
        exact absurd h1 hnv

end Rag

/-! ## C2 — Reciprocal Rank Fusion in `_merge_results` -/

/-- C2: on duplicate-free legs, `_merge_results` gives every chunk the fused
score `Σ 1/(60 + rank + 1)` over the legs containing it (0-based ranks),
marks a chunk `hybrid` exactly when it occurs in both legs, and returns the
fused table sorted by fused score descending, truncated to `top_k` (then
hydrated); in particular a chunk at rank 0 in both legs scores `2/61`,
strictly more than the `1/61` of a chunk at rank 0 in only one leg. -/
theorem C2_rrf_fusion (vec kw : List Rag.RawResult)
    (hydrate : String → Option (String × String)) (topK : Nat)
    (hv : (vec.map (·.chunkId)).Nodup) (hk : (kw.map (·.chunkId)).Nodup) :
    (∀ m ∈ Rag.mergeScores vec kw,
      m.rrfScore = Rag.rrfContrib vec m.chunkId + Rag.rrfContrib kw m.chunkId ∧
      (m.source = "hybrid" ↔
        m.chunkId ∈ vec.map (·.chunkId) ∧ m.chunkId ∈ kw.map (·.chunkId))) ∧
    (∀ cid : String, cid ∈ Rag.keysOf (Rag.mergeScores vec kw) ↔
      cid ∈ vec.map (·.chunkId) ∨ cid ∈ kw.map (·.chunkId)) ∧
    Rag.mergeResults hydrate vec kw topK =
      ((Rag.sortByRRF (Rag.mergeScores vec kw)).take topK).filterMap (fun m =>
        (hydrate m.chunkId).map (fun fc =>
          ⟨m.chunkId, m.documentId, fc.1, fc.2, m.rrfScore, m.source⟩)) ∧
    (Rag.sortByRRF (Rag.mergeScores vec kw)).Sorted
      (fun a b => b.rrfScore ≤ a.rrfScore) ∧
    (Rag.sortByRRF (Rag.mergeScores vec kw)).Perm (Rag.mergeScores vec kw) ∧
    (Rag.mergeResults hydrate vec kw topK).length ≤ topK ∧
    (∀ a ∈ Rag.mergeScores vec kw, ∀ b ∈ Rag.mergeScores vec kw,
      Rag.rankOf a.chunkId vec = some 0 → Rag.rankOf a.chunkId kw = some 0 →
      ((Rag.rankOf b.chunkId vec = some 0 ∧ Rag.rankOf b.chunkId kw = none) ∨
       (Rag.rankOf b.chunkId vec = none ∧ Rag.rankOf b.chunkId kw = some 0)) →
      a.rrfScore = 2/61 ∧ b.rrfScore = 1/61 ∧ b.rrfScore < a.rrfScore) := by
  refine ⟨Rag.mergeScores_char vec kw hv hk,
    Rag.mem_keysOf_mergeScores vec kw, rfl,
    Rag.sortByRRF_sorted _, Rag.sortByRRF_perm _, ?_, ?_⟩
  · exact le_trans (List.length_filterMap_le _ _) (List.length_take_le _ _)
  · intro a ha b hb hav hak hbcase
    have hca := (Rag.mergeScores_char vec kw hv hk a ha).1
    have hcb := (Rag.mergeScores_char vec kw hv hk b hb).1
    have hval : a.rrfScore = 2/61 := by
      rw [hca]
      unfold Rag.rrfContrib
      rw [hav, hak]
      norm_num
    have hvb : b.rrfScore = 1/61 := by
      rcases hbcase with ⟨hb1, hb2⟩ | ⟨hb1, hb2⟩ <;>
        · rw [hcb]
          unfold Rag.rrfContrib
          rw [hb1, hb2]
          norm_num
    exact ⟨hval, hvb, by rw [hval, hvb]; norm_num⟩

/-- C2 witness: a two-element vector leg and a one-element keyword leg
sharing the rank-0 chunk. -/
theorem C2_rrf_fusion_witness :
    (∀ m ∈ Rag.mergeScores [⟨"a", 1, 1, 1⟩, ⟨"b", 2, 1/2, 1⟩] [⟨"a", 1, 1, 1⟩],
      m.rrfScore = Rag.rrfContrib [⟨"a", 1, 1, 1⟩, ⟨"b", 2, 1/2, 1⟩] m.chunkId +
        Rag.rrfContrib [⟨"a", 1, 1, 1⟩] m.chunkId ∧
      (m.source = "hybrid" ↔
        m.chunkId ∈ [Rag.RawResult.mk "a" 1 1 1, ⟨"b", 2, 1/2, 1⟩].map (·.chunkId) ∧
        m.chunkId ∈ [Rag.RawResult.mk "a" 1 1 1].map (·.chunkId))) ∧
    (∀ cid : String,
      cid ∈ Rag.keysOf (Rag.mergeScores [⟨"a", 1, 1, 1⟩, ⟨"b", 2, 1/2, 1⟩]
        [⟨"a", 1, 1, 1⟩]) ↔
      cid ∈ [Rag.RawResult.mk "a" 1 1 1, ⟨"b", 2, 1/2, 1⟩].map (·.chunkId) ∨
      cid ∈ [Rag.RawResult.mk "a" 1 1 1].map (·.chunkId)) ∧
    Rag.mergeResults (fun c => some (c, c)) [⟨"a", 1, 1, 1⟩, ⟨"b", 2, 1/2, 1⟩]
        [⟨"a", 1, 1, 1⟩] 2 =
      ((Rag.sortByRRF (Rag.mergeScores [⟨"a", 1, 1, 1⟩, ⟨"b", 2, 1/2, 1⟩]
        [⟨"a", 1, 1, 1⟩])).take 2).filterMap (fun m =>
        ((fun c => some (c, c)) m.chunkId).map (fun fc =>
          ⟨m.chunkId, m.documentId, fc.1, fc.2, m.rrfScore, m.source⟩)) ∧
    (Rag.sortByRRF (Rag.mergeScores [⟨"a", 1, 1, 1⟩, ⟨"b", 2, 1/2, 1⟩]
      [⟨"a", 1, 1, 1⟩])).Sorted (fun a b => b.rrfScore ≤ a.rrfScore) ∧
    (Rag.sortByRRF (Rag.mergeScores [⟨"a", 1, 1, 1⟩, ⟨"b", 2, 1/2, 1⟩]
      [⟨"a", 1, 1, 1⟩])).Perm
      (Rag.mergeScores [⟨"a", 1, 1, 1⟩, ⟨"b", 2, 1/2, 1⟩] [⟨"a", 1, 1, 1⟩]) ∧
    (Rag.mergeResults (fun c => some (c, c)) [⟨"a", 1, 1, 1⟩, ⟨"b", 2, 1/2, 1⟩]
      [⟨"a", 1, 1, 1⟩] 2).length ≤ 2 ∧
    (∀ a ∈ Rag.mergeScores [⟨"a", 1, 1, 1⟩, ⟨"b", 2, 1/2, 1⟩] [⟨"a", 1, 1, 1⟩],
      ∀ b ∈ Rag.mergeScores [⟨"a", 1, 1, 1⟩, ⟨"b", 2, 1/2, 1⟩] [⟨"a", 1, 1, 1⟩],
      Rag.rankOf a.chunkId [⟨"a", 1, 1, 1⟩, ⟨"b", 2, 1/2, 1⟩] = some 0 →
      Rag.rankOf a.chunkId [⟨"a", 1, 1, 1⟩] = some 0 →
      ((Rag.rankOf b.chunkId [⟨"a", 1, 1, 1⟩, ⟨"b", 2, 1/2, 1⟩] = some 0 ∧
        Rag.rankOf b.chunkId [⟨"a", 1, 1, 1⟩] = none) ∨
       (Rag.rankOf b.chunkId [⟨"a", 1, 1, 1⟩, ⟨"b", 2, 1/2, 1⟩] = none ∧
        Rag.rankOf b.chunkId [⟨"a", 1, 1, 1⟩] = some 0)) →
      a.rrfScore = 2/61 ∧ b.rrfScore = 1/61 ∧ b.rrfScore < a.rrfScore) :=
  C2_rrf_fusion [⟨"a", 1, 1, 1⟩, ⟨"b", 2, 1/2, 1⟩] [⟨"a", 1, 1, 1⟩]
    (fun c => some (c, c)) 2 (by decide) (by decide)

/-! ## C3 — `hybrid_retrieve` ignores `enable_rerank` -/

/-- C3 counterexample: a call with `top_k = 1` and a vector leg returning one
chunk.  The source `hybrid_retrieve` runs the legs with `top_k` itself (never
`top_k*4`) and performs no rerank: the returned context keeps source
`"vector"`, which does not carry the claimed `"+rerank"` suffix. -/
theorem C3_no_rerank_counterexample :
    (Rag.hybrid_retrieve (fun _ => [⟨"c1", 1, 9/10, 1⟩]) (fun _ => [])
        (fun _ => some ("f.txt", "hello")) 1).map (·.source) = ["vector"] ∧
    ¬ ("+rerank".data <:+ "vector".data) := by
  constructor
  · have h1 : Rag.mergeScores [⟨"c1", 1, 9/10, 1⟩] ([] : List Rag.RawResult) =
        [⟨"c1", 1, 1, 9/10, 0, 1/61, "vector"⟩] := by
      show Rag.addKeywordList
        (Rag.addVectorList [] 0 [⟨"c1", 1, 9/10, 1⟩]) 0 [] = _
      norm_num [Rag.addVectorList, Rag.addKeywordList, Rag.addVector, Rag.keysOf]
    show (Rag.mergeResults (fun _ => some ("f.txt", "hello"))
        [⟨"c1", 1, 9/10, 1⟩] [] 1).map (·.source) = ["vector"]
    unfold Rag.mergeResults
    rw [h1]
    rfl
  · decide

/-- C3 amended: `hybrid_retrieve` passes the requested `top_k` unchanged to
both recall legs and to the fusion (`recall_k = top_k` regardless of
`enable_rerank`, which it never reads), and no rerank step runs: every
returned context's source is `vector`, `keyword` or `hybrid`. -/
theorem C3_recall_k_no_rerank (v k : Nat → List Rag.RawResult)
    (hydrate : String → Option (String × String)) (topK : Nat) :
    Rag.hybrid_retrieve v k hydrate topK =
      Rag.mergeResults hydrate (v topK) (k topK) topK ∧
    ∀ c ∈ Rag.hybrid_retrieve v k hydrate topK,
      c.source = "vector" ∨ c.source = "keyword" ∨ c.source = "hybrid" := by
  refine ⟨rfl, ?_⟩
  intro c hc
  obtain ⟨m, hm, hfm⟩ := List.mem_filterMap.mp hc
  have hm2 : m ∈ Rag.sortByRRF (Rag.mergeScores (v topK) (k topK)) :=
    List.mem_of_mem_take hm
  have hm3 : m ∈ Rag.mergeScores (v topK) (k topK) :=
    (Rag.sortByRRF_perm _).mem_iff.mp hm2
  have hs := Rag.sourceOk_mergeScores (v topK) (k topK) m hm3
  cases hh : hydrate m.chunkId with
  | none =>
    rw [hh] at hfm
    cases hfm
  | some fc =>
    rw [hh] at hfm
    injection hfm with hfm
    rw [← hfm]
    exact hs

/-! ## Vectorizer lemmas (towards C1) -/

namespace Vectorizer

theorem find?_map_update (l : List (Nat × DocRow)) (docId : Nat)
    (f : DocRow → DocRow) :
    (l.map (fun p => if p.1 = docId then (p.1, f p.2) else p)).find?
        (fun p => p.1 = docId) =
      (l.find? (fun p => p.1 = docId)).map (fun p => (p.1, f p.2)) := by
  induction l with
  | nil => rfl
  | cons p ps ih =>
    by_cases hp : p.1 = docId
    · simp [List.find?, hp]
    · simp [List.find?, hp, ih]

theorem lookupDoc_updateDoc (st : PState) (docId : Nat) (f : DocRow → DocRow) :
    lookupDoc (updateDoc st docId f) docId = (lookupDoc st docId).map f := by
  unfold lookupDoc updateDoc
  rw [find?_map_update]
  cases st.docs.find? (fun p => p.1 = docId) <;> rfl

theorem lookupDoc_removeDoc (st : PState) (docId : Nat) :
    lookupDoc (removeDoc st docId) docId = none := by
  unfold lookupDoc removeDoc
  have : (st.docs.filter (fun p => p.1 ≠ docId)).find? (fun p => p.1 = docId) =
      none := by
    rw [List.find?_eq_none]
    intro p hp
    have := (List.mem_filter.mp hp).2
    simpa using this
  rw [this]
  rfl

theorem milvusDelete_clean (milvus : List VecRec) (coll : String) (docId : Nat)
    (hwf : ∀ r ∈ milvus, r.documentId = docId → r.collection = coll) :
    ∀ r ∈ milvus.filter (fun r => ¬(r.collection = coll ∧ r.documentId = docId)),
      r.documentId ≠ docId := by
  intro r hr he
  obtain ⟨hrm, hcond⟩ := List.mem_filter.mp hr
  have hc := hwf r hrm he
  simp [hc, he] at hcond

theorem esDelete_clean (es : List EsRec) (docId : Nat) :
    ∀ r ∈ es.filter (fun r => r.documentId ≠ docId), r.documentId ≠ docId := by
  intro r hr
  simpa using (List.mem_filter.mp hr).2

/-- The exception handler (cleanup + `status=failed`) removes every record of
the document from both stores and marks the document failed, provided the
knowledge row exists and all pre-existing vector records of the document live
in its collection. -/
theorem failDoc_clean (st : PState) (kid docId : Nat) (kn : KnowRow)
    (msg : String) (hkn : lookupKnow st kid = some kn)
    (hwf : ∀ r ∈ st.milvus, r.documentId = docId → r.collection = kn.collectionName) :
    (∀ r ∈ (failDoc st kid docId msg).milvus, r.documentId ≠ docId) ∧
    (∀ r ∈ (failDoc st kid docId msg).es, r.documentId ≠ docId) ∧
    lookupDoc (failDoc st kid docId msg) docId =
      (lookupDoc st docId).map
        (fun d => { d with statusv := "failed", errorMsg := some msg }) := by
  unfold failDoc cleanupStores
  rw [hkn]
  refine ⟨?_, ?_, ?_⟩
  · intro r hr
    exact milvusDelete_clean st.milvus kn.collectionName docId hwf r hr
  · intro r hr
    exact esDelete_clean _ docId r hr
  · rw [lookupDoc_updateDoc]
    rfl

end Vectorizer

namespace Vectorizer

/-- A failure branch with the document row still present: both stores are
cleaned and the document row ends `failed` with an error message. -/
theorem failBranch (stx : PState) (kid docId : Nat) (kn : KnowRow)
    (msg : String) (d1 : DocRow) (hkn : lookupKnow stx kid = some kn)
    (hwf : ∀ r ∈ stx.milvus, r.documentId = docId → r.collection = kn.collectionName)
    (hdoc : lookupDoc stx docId = some d1) :
    (∀ r ∈ (failDoc stx kid docId msg).milvus, r.documentId ≠ docId) ∧
    (∀ r ∈ (failDoc stx kid docId msg).es, r.documentId ≠ docId) ∧
    ∃ d, lookupDoc (failDoc stx kid docId msg) docId = some d ∧
      d.statusv = "failed" ∧ d.errorMsg ≠ none := by
  obtain ⟨h1, h2, h3⟩ := failDoc_clean stx kid docId kn msg hkn hwf
  refine ⟨h1, h2, ⟨{ d1 with statusv := "failed", errorMsg := some msg }, ?_, rfl, by simp⟩⟩
  rw [h3, hdoc]
  rfl

end Vectorizer

/-! ## C1 — vectorizer compensation on failure -/

/-- C1: when `process_chunks` fails (embedding or either store write raises)
or detects that the document was deleted mid-flight, the resulting state
contains no vector-store record and no inverted-index record for the
`document_id`; and in the failure case with the document still present, the
document row is `failed` with an `error_msg`.  Pre-existing vector records of
the document are assumed to live in the knowledge's collection (the
collection name is immutable). -/
theorem C1_vectorizer_atomic_failure (st : Vectorizer.PState)
    (o : Vectorizer.RunOracle) (docId : Nat) (chunks : List String) (kid : Nat)
    (d0 : Vectorizer.DocRow) (kn : Vectorizer.KnowRow)
    (hdoc : Vectorizer.lookupDoc st docId = some d0)
    (hkn : Vectorizer.lookupKnow st kid = some kn)
    (hwf : ∀ r ∈ st.milvus, r.documentId = docId → r.collection = kn.collectionName)
    (hfail : (o.embedOk = false ∨ o.milvusOk = false ∨ o.esOk = false) ∨
      o.docDeletedMidFlight = true) :
    (∀ r ∈ (Vectorizer.process_chunks st o docId chunks kid).milvus,
      r.documentId ≠ docId) ∧
    (∀ r ∈ (Vectorizer.process_chunks st o docId chunks kid).es,
      r.documentId ≠ docId) ∧
    ((o.embedOk = false ∨ o.milvusOk = false ∨ o.esOk = false) →
      o.docDeletedMidFlight = false →
      ∃ d, Vectorizer.lookupDoc
          (Vectorizer.process_chunks st o docId chunks kid) docId = some d ∧
        d.statusv = "failed" ∧ d.errorMsg ≠ none) := by
  have hkn1 : Vectorizer.lookupKnow (Vectorizer.updateDoc st docId
      (fun d => { d with statusv := "embedding" })) kid = some kn := hkn
  have hwf1 : ∀ r ∈ (Vectorizer.updateDoc st docId
      (fun d => { d with statusv := "embedding" })).milvus,
      r.documentId = docId → r.collection = kn.collectionName := hwf
  have hdoc1 : Vectorizer.lookupDoc (Vectorizer.updateDoc st docId
      (fun d => { d with statusv := "embedding" })) docId =
      some { d0 with statusv := "embedding" } := by
    rw [Vectorizer.lookupDoc_updateDoc, hdoc]
    rfl
  simp only [Vectorizer.process_chunks, hdoc, hkn1]
  by_cases he : o.embedOk = true
  case neg =>
    have he' : o.embedOk = false := by simpa using he
    rw [if_pos (by simp [he'] : ¬o.embedOk = true)]
    by_cases hd : o.docDeletedMidFlight = true
    · rw [if_pos hd]
      obtain ⟨h1, h2, -⟩ := Vectorizer.failDoc_clean
        (Vectorizer.removeDoc (Vectorizer.updateDoc st docId
          (fun d => { d with statusv := "embedding" })) docId)
        kid docId kn "向量化失败: embedding error" hkn hwf
      exact ⟨h1, h2, fun _ hdd => absurd (hd ▸ hdd) (by simp)⟩
    · have hd' : o.docDeletedMidFlight = false := by simpa using hd
      rw [if_neg (by simp [hd'] : ¬o.docDeletedMidFlight = true)]
      obtain ⟨h1, h2, h3⟩ :=
        Vectorizer.failBranch _ kid docId kn _ _ hkn1 hwf1 hdoc1
      exact ⟨h1, h2, fun _ _ => h3⟩
  case pos =>
    rw [if_neg (by simp [he] : ¬¬o.embedOk = true)]
    by_cases hm : o.milvusOk = true
    case neg =>
      have hm' : o.milvusOk = false := by simpa using hm
      rw [if_pos (by simp [hm'] : ¬o.milvusOk = true)]
      by_cases hd : o.docDeletedMidFlight = true
      · rw [if_pos hd]
        obtain ⟨h1, h2, -⟩ := Vectorizer.failDoc_clean
          (Vectorizer.removeDoc (Vectorizer.updateDoc st docId
            (fun d => { d with statusv := "embedding" })) docId)
          kid docId kn "向量化失败: milvus insert error" hkn hwf
        exact ⟨h1, h2, fun _ hdd => absurd (hd ▸ hdd) (by simp)⟩
      · have hd' : o.docDeletedMidFlight = false := by simpa using hd
        rw [if_neg (by simp [hd'] : ¬o.docDeletedMidFlight = true)]
        obtain ⟨h1, h2, h3⟩ :=
          Vectorizer.failBranch _ kid docId kn _ _ hkn1 hwf1 hdoc1
        exact ⟨h1, h2, fun _ _ => h3⟩
    case pos =>
      rw [if_neg (by simp [hm] : ¬¬o.milvusOk = true)]
      have hkn2 : Vectorizer.lookupKnow (Vectorizer.insertMilvus
          (Vectorizer.updateDoc st docId (fun d => { d with statusv := "embedding" }))
          kn.collectionName docId chunks) kid = some kn := hkn
      have hwf2 : ∀ r ∈ (Vectorizer.insertMilvus
          (Vectorizer.updateDoc st docId (fun d => { d with statusv := "embedding" }))
          kn.collectionName docId chunks).milvus,
          r.documentId = docId → r.collection = kn.collectionName := by
        intro r hr hrd
        rcases List.mem_append.mp hr with hra | hrb
        · exact hwf r hra hrd
        · obtain ⟨i, -, hri⟩ := List.mem_map.mp hrb
          rw [← hri]
      have hdoc2 : Vectorizer.lookupDoc (Vectorizer.insertMilvus
          (Vectorizer.updateDoc st docId (fun d => { d with statusv := "embedding" }))
          kn.collectionName docId chunks) docId =
          some { d0 with statusv := "embedding" } := hdoc1
      by_cases hs : o.esOk = true
      case neg =>
        have hs' : o.esOk = false := by simpa using hs
        rw [if_pos (by simp [hs'] : ¬o.esOk = true)]
        by_cases hd : o.docDeletedMidFlight = true
        · rw [if_pos hd]
          obtain ⟨h1, h2, -⟩ := Vectorizer.failDoc_clean
            (Vectorizer.removeDoc (Vectorizer.insertMilvus
              (Vectorizer.updateDoc st docId
                (fun d => { d with statusv := "embedding" }))
              kn.collectionName docId chunks) docId)
            kid docId kn "向量化失败: es index error" hkn2 hwf2
          exact ⟨h1, h2, fun _ hdd => absurd (hd ▸ hdd) (by simp)⟩
        · have hd' : o.docDeletedMidFlight = false := by simpa using hd
          rw [if_neg (by simp [hd'] : ¬o.docDeletedMidFlight = true)]
          obtain ⟨h1, h2, h3⟩ :=
            Vectorizer.failBranch _ kid docId kn _ _ hkn2 hwf2 hdoc2
          exact ⟨h1, h2, fun _ _ => h3⟩
      case pos =>
        rw [if_neg (by simp [hs] : ¬¬o.esOk = true)]
        by_cases hd : o.docDeletedMidFlight = true
        · rw [if_pos hd]
          refine ⟨?_, ?_, fun _ hdd => absurd (hd ▸ hdd) (by simp)⟩
          · intro r hr
            exact Vectorizer.milvusDelete_clean _ kn.collectionName docId hwf2 r hr
          · intro r hr
            exact Vectorizer.esDelete_clean _ docId r hr
        · exfalso
          rcases hfail with (hf | hf | hf) | hf
          · rw [he] at hf; cases hf
          · rw [hm] at hf; cases hf
          · rw [hs] at hf; cases hf
          · exact hd hf

/-- C1 witness: the ES write fails on a one-chunk document; the state held a
stale vector record for the document from a previous attempt. -/
theorem C1_vectorizer_atomic_failure_witness :
    (∀ r ∈ (Vectorizer.process_chunks
        ⟨[(5, ⟨2, "embedding", 0, none⟩)], [(2, ⟨"kb_2", 0, 0⟩)],
          [⟨"kb_2", "5_0", 5, 0⟩], []⟩
        ⟨true, true, false, false⟩ 5 ["hello"] 2).milvus, r.documentId ≠ 5) ∧
    (∀ r ∈ (Vectorizer.process_chunks
        ⟨[(5, ⟨2, "embedding", 0, none⟩)], [(2, ⟨"kb_2", 0, 0⟩)],
          [⟨"kb_2", "5_0", 5, 0⟩], []⟩
        ⟨true, true, false, false⟩ 5 ["hello"] 2).es, r.documentId ≠ 5) ∧
    (((true : Bool) = false ∨ (true : Bool) = false ∨ (false : Bool) = false) →
      (false : Bool) = false →
      ∃ d, Vectorizer.lookupDoc (Vectorizer.process_chunks
          ⟨[(5, ⟨2, "embedding", 0, none⟩)], [(2, ⟨"kb_2", 0, 0⟩)],
            [⟨"kb_2", "5_0", 5, 0⟩], []⟩
          ⟨true, true, false, false⟩ 5 ["hello"] 2) 5 = some d ∧
        d.statusv = "failed" ∧ d.errorMsg ≠ none) :=
  C1_vectorizer_atomic_failure
    ⟨[(5, ⟨2, "embedding", 0, none⟩)], [(2, ⟨"kb_2", 0, 0⟩)],
      [⟨"kb_2", "5_0", 5, 0⟩], []⟩
    ⟨true, true, false, false⟩ 5 ["hello"] 2 ⟨2, "embedding", 0, none⟩
    ⟨"kb_2", 0, 0⟩ (by decide) (by decide) (by decide) (by decide)

/-! ## Streaming lemmas (towards C7) -/

namespace SSE

theorem countFinished_append (a b : List Ev) :
    countFinished (a ++ b) = countFinished a + countFinished b := by
  simp [countFinished]

theorem countFinished_procDelta (st : StState) (d : Delta) :
    countFinished (procDelta st d).2 = if d.finishReason then 1 else 0 := by
  rcases d with ⟨rc, c, fr, u⟩
  cases rc <;>
    simp only [procDelta] <;>
    split_ifs <;>
    simp [countFinished, evType]

theorem eq_concat_of_getLast? {L : List Ev} {u : Usage} {a r : String}
    (h : L.getLast? = some (Ev.finished u a r)) :
    ∃ evs u' a' r', L = evs ++ [Ev.finished u' a' r'] := by
  have hne : L ≠ [] := by rintro rfl; cases h
  refine ⟨L.dropLast, u, a, r, ?_⟩
  have hg : L.getLast hne = Ev.finished u a r := by
    rw [List.getLast?_eq_getLast L hne] at h
    exact Option.some.inj h
  rw [← hg]
  exact (List.dropLast_append_getLast hne).symm

theorem procDelta_finish_concat (st : StState) (d : Delta)
    (hf : d.finishReason = true) :
    ∃ evs u a r, (procDelta st d).2 = evs ++ [Ev.finished u a r] := by
  rcases d with ⟨rc, c, fr, u⟩
  cases fr
  · cases hf
  · cases rc <;>
      simp only [procDelta] <;>
      split_ifs <;>
      exact eq_concat_of_getLast? rfl

theorem procLines_append (pre : List StreamLine) :
    ∀ (st : StState) (rest : List StreamLine), StreamLine.done ∉ pre →
      procLines st (pre ++ rest) =
        procLines st pre ++ procLines (foldSt st pre) rest := by
  induction pre with
  | nil => intro st rest _; simp [procLines, foldSt]
  | cons l ls ih =>
    intro st rest hnd
    have hl : l ≠ StreamLine.done := fun he => hnd (he ▸ List.mem_cons_self l ls)
    have hnd' : StreamLine.done ∉ ls := fun hm => hnd (List.mem_cons_of_mem l hm)
    cases l with
    | done => exact absurd rfl hl
    | junk =>
      show procLines st (ls ++ rest) = procLines st ls ++ _
      rw [ih st rest hnd']
      rfl
    | data d =>
      show (procDelta st d).2 ++ procLines (procDelta st d).1 (ls ++ rest) = _
      rw [ih (procDelta st d).1 rest hnd']
      simp [procLines, foldSt]

theorem countFinished_procLines (lines : List StreamLine) :
    ∀ st : StState,
      countFinished (procLines st lines) = countFinishLines lines := by
  induction lines with
  | nil => intro st; simp [procLines, countFinishLines, countFinished]
  | cons l ls ih =>
    intro st
    cases l with
    | done => simp [procLines, countFinishLines, countFinished]
    | junk =>
      show countFinished (procLines st ls) = countFinishLines ls
      exact ih st
    | data d =>
      show countFinished ((procDelta st d).2 ++ procLines (procDelta st d).1 ls) = _
      rw [countFinished_append, countFinished_procDelta, ih]
      rfl

theorem countFinished_ctxEvs (numContexts : Nat) :
    countFinished (if numContexts ≠ 0 then
      Ev.searchGuid :: (List.range numContexts).map (fun i => Ev.context (i + 1))
    else []) = 0 := by
  split_ifs
  · simp [countFinished, evType, List.filter_eq_nil]
  · simp [countFinished]

theorem countFinishLines_zero (pre : List StreamLine)
    (h : ∀ l ∈ pre, isFinishLine l = false) : countFinishLines pre = 0 := by
  induction pre with
  | nil => rfl
  | cons l ls ih =>
    cases l with
    | done => rfl
    | junk =>
      show countFinishLines ls = 0
      exact ih (fun x hx => h x (List.mem_cons_of_mem _ hx))
    | data d =>
      have hd : d.finishReason = false := h (StreamLine.data d) (List.mem_cons_self _ _)
      show (if d.finishReason then 1 else 0) + countFinishLines ls = 0
      rw [hd, ih (fun x hx => h x (List.mem_cons_of_mem _ hx))]
      rfl

end SSE

/-! ## C7 — exactly one `finished` event; stream errors surface as `text` -/

/-- C7: with the provider returning HTTP 200, (i) a well-formed stream whose
final data chunk carries `finish_reason` (followed by `[DONE]`, no earlier
finish chunk) produces exactly one `finished` event, and it is the last event;
(ii) an upstream exception after a consumed prefix `lines` appends exactly one
`text` event whose `msg` is `"错误: "` plus the error string, and the number
of `finished` events still equals the number of finish chunks consumed before
the error (so `finished` is still emitted when the provider had reached
`finish_reason`). -/
theorem C7_stream_finished (numContexts : Nat) (pre lines : List SSE.StreamLine)
    (d : SSE.Delta) (e : String)
    (hpre1 : SSE.StreamLine.done ∉ pre)
    (hpre2 : ∀ l ∈ pre, SSE.isFinishLine l = false)
    (hd : d.finishReason = true) :
    SSE.countFinished (SSE.generate_stream numContexts 200
      (pre ++ [SSE.StreamLine.data d, SSE.StreamLine.done]) none) = 1 ∧
    (∃ evs u a r, SSE.generate_stream numContexts 200
      (pre ++ [SSE.StreamLine.data d, SSE.StreamLine.done]) none =
        evs ++ [SSE.Ev.finished u a r]) ∧
    SSE.generate_stream numContexts 200 lines (some e) =
      SSE.generate_stream numContexts 200 lines none ++
        [SSE.Ev.textMsg ("错误: " ++ e)] ∧
    SSE.countFinished (SSE.generate_stream numContexts 200 lines (some e)) =
      SSE.countFinishLines lines := by
  have hgen : ∀ (L : List SSE.StreamLine) (err : Option String),
      SSE.generate_stream numContexts 200 L err =
        (if numContexts ≠ 0 then
          SSE.Ev.searchGuid ::
            (List.range numContexts).map (fun i => SSE.Ev.context (i + 1))
         else []) ++
          (SSE.procLines SSE.initStState L ++
            (match err with
             | some e' => [SSE.Ev.textMsg ("错误: " ++ e')]
             | none => [])) := by
    intro L err
    unfold SSE.generate_stream
    norm_num
  have hsplit : SSE.procLines SSE.initStState
      (pre ++ [SSE.StreamLine.data d, SSE.StreamLine.done]) =
      SSE.procLines SSE.initStState pre ++
        (SSE.procDelta (SSE.foldSt SSE.initStState pre) d).2 := by
    rw [SSE.procLines_append pre SSE.initStState _ hpre1]
    simp [SSE.procLines]
  refine ⟨?_, ?_, ?_, ?_⟩
  · rw [hgen, hsplit]
    rw [SSE.countFinished_append, SSE.countFinished_ctxEvs,
      SSE.countFinished_append, SSE.countFinished_append,
      SSE.countFinished_procLines,
      SSE.countFinishLines_zero pre hpre2, SSE.countFinished_procDelta, hd]
    simp [SSE.countFinished]
  · obtain ⟨evs0, u, a, r, hpd⟩ :=
      SSE.procDelta_finish_concat (SSE.foldSt SSE.initStState pre) d hd
    rw [hgen, hsplit, hpd]
    refine ⟨(if numContexts ≠ 0 then
        SSE.Ev.searchGuid ::
          (List.range numContexts).map (fun i => SSE.Ev.context (i + 1))
      else []) ++ (SSE.procLines SSE.initStState pre ++ evs0), u, a, r, ?_⟩
    simp [List.append_assoc]
  · rw [hgen, hgen]
    simp [List.append_assoc]
  · rw [hgen]
    rw [SSE.countFinished_append, SSE.countFinished_ctxEvs,
      SSE.countFinished_append, SSE.countFinished_procLines]
    simp [SSE.countFinished, SSE.evType]

/-- C7 witness: one content chunk, then the finish chunk, then `[DONE]`; the
error case instantiated with a one-chunk prefix. -/
theorem C7_stream_finished_witness :
    SSE.countFinished (SSE.generate_stream 1 200
      ([SSE.StreamLine.data ⟨none, "hi", false, ⟨0, 0, 0⟩⟩] ++
        [SSE.StreamLine.data ⟨none, "", true, ⟨3, 4, 7⟩⟩, SSE.StreamLine.done])
      none) = 1 ∧
    (∃ evs u a r, SSE.generate_stream 1 200
      ([SSE.StreamLine.data ⟨none, "hi", false, ⟨0, 0, 0⟩⟩] ++
        [SSE.StreamLine.data ⟨none, "", true, ⟨3, 4, 7⟩⟩, SSE.StreamLine.done])
      none = evs ++ [SSE.Ev.finished u a r]) ∧
    SSE.generate_stream 1 200 [SSE.StreamLine.data ⟨none, "hi", false, ⟨0, 0, 0⟩⟩]
      (some "boom") =
      SSE.generate_stream 1 200 [SSE.StreamLine.data ⟨none, "hi", false, ⟨0, 0, 0⟩⟩]
        none ++ [SSE.Ev.textMsg ("错误: " ++ "boom")] ∧
    SSE.countFinished (SSE.generate_stream 1 200
      [SSE.StreamLine.data ⟨none, "hi", false, ⟨0, 0, 0⟩⟩] (some "boom")) =
      SSE.countFinishLines [SSE.StreamLine.data ⟨none, "hi", false, ⟨0, 0, 0⟩⟩] :=
  C7_stream_finished 1 [SSE.StreamLine.data ⟨none, "hi", false, ⟨0, 0, 0⟩⟩]
    [SSE.StreamLine.data ⟨none, "hi", false, ⟨0, 0, 0⟩⟩]
    ⟨none, "", true, ⟨3, 4, 7⟩⟩ "boom" (by decide) (by decide) rfl

/-! ## C8 — chunk length bound of the recursive splitter -/

/-- C8 counterexample: `chunk_size = 100`, `chunk_overlap = 50` (both within
the claimed ranges, overlap < size) on the 103-character text
`"a"*50 ++ " " ++ "b"*50 ++ " x"`.  After the first flush the carried tail
(tracked length 50 = overlap) receives the next 50-character piece without a
re-check, so the second emitted chunk is 101 characters long — more than
`chunk_size`. -/
theorem C8_chunk_size_counterexample :
    (Splitter.split_text 100 50 Splitter.defaultSeps
      (List.replicate 50 'a' ++ [' '] ++ List.replicate 50 'b' ++ [' ', 'x'])).map
        List.length = [50, 101, 52] ∧
    ∃ c ∈ Splitter.split_text 100 50 Splitter.defaultSeps
      (List.replicate 50 'a' ++ [' '] ++ List.replicate 50 'b' ++ [' ', 'x']),
      100 < c.length := by
  constructor
  · unfold Splitter.split_text
    decide
  · unfold Splitter.split_text
    decide

/-! ## Splitter lemmas (towards the amended C8) -/

namespace Splitter

theorem stripL_length_le (l : List Char) : (stripL l).length ≤ l.length := by
  unfold stripL
  rw [List.length_reverse]
  refine le_trans (List.Sublist.length_le (List.dropWhile_sublist _)) ?_
  rw [List.length_reverse]
  exact List.Sublist.length_le (List.dropWhile_sublist _)

theorem intercalate_nil_length (xs : List (List Char)) :
    (List.intercalate [] xs).length = (xs.map List.length).sum := by
  induction xs with
  | nil => rfl
  | cons x rest ih =>
    cases rest with
    | nil => simp [List.intercalate]
    | cons y ys =>
      have hstep : List.intercalate ([] : List Char) (x :: y :: ys) =
          x ++ List.intercalate [] (y :: ys) := by
        simp [List.intercalate, List.intersperse]
      rw [hstep, List.length_append, ih]
      simp

theorem joinStrip_nil_length (xs : List (List Char)) :
    (joinStrip [] xs).length ≤ (xs.map List.length).sum :=
  le_trans (stripL_length_le _) (le_of_eq (intercalate_nil_length xs))

theorem popLoop_post (co : Int) (sepLen : Nat) :
    ∀ (cur : List (List Char)) (cl : Int),
      (popLoop co sepLen cur cl).2 ≤ co ∨ (popLoop co sepLen cur cl).1 = [] := by
  intro cur
  induction cur with
  | nil => intro cl; exact Or.inr rfl
  | cons c rest ih =>
    intro cl
    unfold popLoop
    by_cases h : co < cl
    · rw [if_pos h]
      exact ih _
    · rw [if_neg h]
      exact Or.inl (le_of_not_lt h)

theorem popLoop_zero (co : Int) (hco : 0 ≤ co) :
    ∀ (cur : List (List Char)) (cl : Int),
      cl = (((cur.map List.length).sum : Nat) : Int) →
      (popLoop co 0 cur cl).2 =
        ((((popLoop co 0 cur cl).1.map List.length).sum : Nat) : Int) ∧
      (popLoop co 0 cur cl).2 ≤ co := by
  intro cur
  induction cur with
  | nil =>
    intro cl hcl
    refine ⟨hcl, ?_⟩
    rw [hcl]
    simpa using hco
  | cons c rest ih =>
    intro cl hcl
    unfold popLoop
    by_cases h : co < cl
    · rw [if_pos h]
      apply ih
      rw [hcl]
      push_cast [List.map_cons, List.sum_cons]
      ring
    · rw [if_neg h]
      exact ⟨hcl, le_of_not_lt h⟩

theorem mergeGo_zero_bound (cs co : Int) (hcs : 1 ≤ cs) (hco : 0 ≤ co)
    (hcoc : co < cs) :
    ∀ (splits : List (List Char)) (cur : List (List Char)) (cl : Int)
      (acc : List (List Char)),
      (∀ s ∈ splits, s.length = 1) →
      cl = (((cur.map List.length).sum : Nat) : Int) →
      cl ≤ cs →
      (∀ c ∈ acc, (c.length : Int) ≤ cs) →
      ∀ c ∈ mergeGo cs co 0 [] splits cur cl acc, (c.length : Int) ≤ cs := by
  intro splits
  induction splits with
  | nil =>
    intro cur cl acc _ hcl hclcs hacc c hc
    unfold mergeGo at hc
    by_cases hcur : cur ≠ []
    · rw [if_pos hcur] at hc
      rcases List.mem_append.mp hc with hca | hcb
      · exact hacc c hca
      · have hceq : c = joinStrip [] cur := by simpa using hcb
        subst hceq
        calc ((joinStrip [] cur).length : Int)
            ≤ (((cur.map List.length).sum : Nat) : Int) := by
              exact_mod_cast joinStrip_nil_length cur
          _ = cl := hcl.symm
          _ ≤ cs := hclcs
    · rw [if_neg hcur] at hc
      exact hacc c hc
  | cons s rest ih =>
    intro cur cl acc hone hcl hclcs hacc c hc
    have hs1 : s.length = 1 := hone s (List.mem_cons_self s rest)
    have hsne : ¬s = [] := by
      intro he
      rw [he] at hs1
      cases hs1
    have hone' : ∀ x ∈ rest, x.length = 1 :=
      fun x hx => hone x (List.mem_cons_of_mem s hx)
    unfold mergeGo at hc
    rw [if_neg hsne] at hc
    simp only [hs1, Nat.cast_zero, Nat.cast_one, ite_self, add_zero] at hc
    by_cases hflush : cs < cl + 1
    · rw [if_pos hflush] at hc
      by_cases hcur : cur ≠ []
      · rw [if_pos hcur] at hc
        obtain ⟨hpc1, hpc2⟩ := popLoop_zero co hco cur cl hcl
        refine ih ((popLoop co 0 cur cl).1 ++ [s]) ((popLoop co 0 cur cl).2 + 1)
          (acc ++ [joinStrip [] cur]) hone' ?_ ?_ ?_ c hc
        · rw [hpc1]
          push_cast [List.map_append, List.sum_append, List.map_cons, List.sum_cons,
            List.map_nil, List.sum_nil, hs1]
          ring
        · linarith
        · intro x hx
          rcases List.mem_append.mp hx with hxa | hxb
          · exact hacc x hxa
          · have hxeq : x = joinStrip [] cur := by simpa using hxb
            subst hxeq
            calc ((joinStrip [] cur).length : Int)
                ≤ (((cur.map List.length).sum : Nat) : Int) := by
                  exact_mod_cast joinStrip_nil_length cur
              _ = cl := hcl.symm
              _ ≤ cs := hclcs
      · rw [if_neg hcur] at hc
        exfalso
        have hcur' : cur = [] := not_not.mp hcur
        rw [hcur'] at hcl
        simp at hcl
        linarith
    · rw [if_neg hflush] at hc
      refine ih (cur ++ [s]) (cl + 1) acc hone' ?_ ?_ hacc c hc
      · rw [hcl]
        push_cast [List.map_append, List.sum_append, List.map_cons, List.sum_cons,
            List.map_nil, List.sum_nil, hs1]
        ring
      · exact le_of_not_lt hflush

end Splitter

namespace Splitter

theorem chooseSep_default_empty (text : List Char)
    (hsep : ∀ s ∈ defaultSeps, s ≠ [] → containsSub s text = false) :
    chooseSep defaultSeps text = ([], []) := by
  have h1 := hsep ['\n', '\n'] (by simp [defaultSeps]) (by simp)
  have h2 := hsep ['\n'] (by simp [defaultSeps]) (by simp)
  have h3 := hsep ['。'] (by simp [defaultSeps]) (by simp)
  have h4 := hsep ['！'] (by simp [defaultSeps]) (by simp)
  have h5 := hsep ['？'] (by simp [defaultSeps]) (by simp)
  have h6 := hsep ['；'] (by simp [defaultSeps]) (by simp)
  have h7 := hsep ['，'] (by simp [defaultSeps]) (by simp)
  have h8 := hsep [' '] (by simp [defaultSeps]) (by simp)
  simp only [containsSub, decide_eq_false_iff_not] at h1 h2 h3 h4 h5 h6 h7 h8
  unfold chooseSep defaultSeps
  simp [chooseSepGo, containsSub, h1, h2, h3, h4, h5, h6, h7, h8]

theorem attach_flatMap_id (l : List (List Char))
    (f : {x // x ∈ l} → List (List Char))
    (hf : ∀ s : {x // x ∈ l}, f s = [s.1]) : l.attach.flatMap f = l := by
  have h1 : l.attach.flatMap f = l.attach.flatMap (fun s => [s.1]) := by
    congr 1
    funext s
    exact hf s
  rw [h1, ← List.map_eq_bind]
  exact List.attach_map_subtype_val l

end Splitter

/-- C8 amended: when no listed non-empty separator occurs in the text (pure
character splitting, separator length 0), every chunk returned by
`split_text` has length at most `chunk_size`; and the overlap carry always
pops the current chunk until its tracked length is at most `chunk_overlap`
or the chunk is exhausted.  (With a non-empty separator the bound can fail,
as the counterexample shows, because the piece appended right after a carry
is not re-checked against `chunk_size`.) -/
theorem C8_splitter_bounds (cs co : Int) (text : List Char)
    (hcs1 : 100 ≤ cs) (hcs2 : cs ≤ 2000) (hco0 : 0 ≤ co) (hco5 : co ≤ 500)
    (hcos : co < cs)
    (hsep : ∀ s ∈ Splitter.defaultSeps, s ≠ [] →
      Splitter.containsSub s text = false) :
    (∀ c ∈ Splitter.split_text cs co Splitter.defaultSeps text,
      (c.length : Int) ≤ cs) ∧
    (∀ (sepLen : Nat) (cur : List (List Char)) (cl : Int),
      (Splitter.popLoop co sepLen cur cl).2 ≤ co ∨
      (Splitter.popLoop co sepLen cur cl).1 = []) := by
  constructor
  · have hcs0 := Splitter.chooseSep_default_empty text hsep
    have hred : Splitter.split_text cs co Splitter.defaultSeps text =
        Splitter.mergeSplits cs co [] (text.map (fun ch => [ch])) := by
      unfold Splitter.split_text
      rw [hcs0]
      simp only [Splitter.splitWithSep, if_pos]
      congr 1
      apply Splitter.attach_flatMap_id
      intro s
      obtain ⟨ch, -, hch⟩ := List.mem_map.mp s.2
      rw [if_pos]
      rw [← hch]
      simp
      linarith
    intro c hc
    rw [hred] at hc
    refine Splitter.mergeGo_zero_bound cs co (by linarith) hco0 hcos
      (text.map (fun ch => [ch])) [] 0 [] ?_ (by simp) (by linarith)
      (by simp) c hc
    intro s hs
    obtain ⟨ch, -, hch⟩ := List.mem_map.mp hs
    rw [← hch]
    rfl
  · intro sepLen cur cl
    exact Splitter.popLoop_post co sepLen cur cl

/-- C8 witness: the default parameters `chunk_size = 100`,
`chunk_overlap = 50` on the separator-free text `"abc"`. -/
theorem C8_splitter_bounds_witness :
    (∀ c ∈ Splitter.split_text 100 50 Splitter.defaultSeps ['a', 'b', 'c'],
      (c.length : Int) ≤ 100) ∧
    (∀ (sepLen : Nat) (cur : List (List Char)) (cl : Int),
      (Splitter.popLoop 50 sepLen cur cl).2 ≤ 50 ∨
      (Splitter.popLoop 50 sepLen cur cl).1 = []) :=
  C8_splitter_bounds 100 50 ['a', 'b', 'c'] (by norm_num) (by norm_num)
    (by norm_num) (by norm_num) (by norm_num) (by decide)
